import Mathlib

/-
Verification development for `pyalgomate/strategies/StraddleStrategy.py`.

The file shallowly embeds the strategy's order-state machine:
  * legs (pyalgotrade `Position` objects) are natural-number identifiers,
    allocated freshly by each submitted entry order;
  * the four pending sets, the strategy phase, the set `self.positions`
    of straddle groups, and the broker-side per-leg order flags are the
    state of a labelled transition system whose events are the periodic
    driver tick (`strategyLogic`), the resampled-bar trigger
    (`onResampledBars`) and the four broker callbacks;
  * Python's `None` can be an element both of `self.positions` and of
    `self.pendingEntry` (the source adds the return value of a skipped
    submission unconditionally); these memberships are tracked by the
    boolean fields `positionsNone` and `pendingEntryNone`;
  * order submissions (`enterLongLimit`, `enterShortLimit`,
    `exitStopLimit`, `exitLimit`, `cancelExit`) are recorded in a log so
    that duplicate submissions are observable;
  * an unhandled Python exception escaping a callback (the
    `None.ceShort` dereference in `getStraddlePosition`, or
    `None.exitFilled()` on a partially entered group) is modelled by the
    boolean second component of the handler's result;
  * price computations (`getRoundedOffPriceByTickSize`, the market
    protection prices) are embedded separately over `ℚ`, and the
    stop-loss schedule lookup over times measured in minutes.

External collaborators (the pyalgotrade feed and broker, and the
`BaseOptionsGreeksStrategy` base class, which are not under `src/`) enter
only through their interface: bar availability, the ATM strike, the
current time, `isPendingOrdersCompleted`, and the set of active legs are
inputs of the transition system; where the spec describes them
(active legs are the legs whose entry filled and whose exit has not, a
session reset clears the phase and all tracker sets) the model follows
the spec's words.
-/

namespace StraddleStrategy

/-- Strategy phase. Modelled from the spec: `pyalgomate.core.State` is not
under `src/`; the spec lists the five phases LIVE, PLACING_ORDERS, ENTERED,
SQUARING_OFF, EXITED. -/
inductive State where
  | LIVE
  | PLACING_ORDERS
  | ENTERED
  | SQUARING_OFF
  | EXITED
deriving DecidableEq, Repr

/-- Broker-side order flags of one leg (one pyalgotrade `Position`):
whether its entry order has filled, whether an exit order is currently
active, and whether its exit has filled. -/
structure LegSt where
  entryFilled : Bool
  exitActive : Bool
  exitFilled : Bool
deriving DecidableEq, Repr

/-- `StraddlePosition` from the source (lines 25-31): the four legs of one
group and its strike. Each leg slot is an `Option` because
`enterWithMarketProtection` returns Python `None` when no last bar is
available for the leg's symbol, and `enterPositions` stores that return
value in the slot unchanged. -/
structure StraddlePosition where
  ceHedge : Option Nat
  peHedge : Option Nat
  ceShort : Option Nat
  peShort : Option Nat
  strike : Int
deriving DecidableEq, Repr

/-- One order submission or cancel request sent to the broker; kept in a
log so that duplicate submissions are observable. -/
inductive Submission where
  | entryLong (leg : Nat)
  | entryShort (leg : Nat)
  | exitStopLimit (leg : Nat)
  | exitLimit (leg : Nat)
  | cancelExit (leg : Nat)
deriving DecidableEq, Repr

/-- Bar availability (`getLastBar`) for the four entry symbols at the time
`enterPositions` runs. -/
structure EntryBars where
  ceHedge : Bool
  peHedge : Bool
  ceShort : Bool
  peShort : Bool
deriving DecidableEq, Repr

/-- The mutable state of `StraddleStrategy` together with the broker-side
leg flags.  `pendingEntryNone` records whether Python `None` is an element
of `self.pendingEntry`, `positionsNone` whether `None` is an element of
`self.positions`; `positionsGroups` keeps the (always freshly allocated)
group objects in insertion order.  `submitted` is the log of broker
submissions and `entryCalls` a ghost count of `enterPositions`
invocations. -/
structure Strat where
  state : State
  pendingEntry : Finset Nat
  pendingEntryNone : Bool
  pendingSLToCost : Finset Nat
  pendingCancelExit : Finset Nat
  pendingExit : Finset Nat
  positionsGroups : List StraddlePosition
  positionsNone : Bool
  legSt : Nat → LegSt
  nextLeg : Nat
  submitted : List Submission
  entryCalls : Nat

/-- Configuration: `maxEntries` (source value 3), the forced-unwind
deadline `exitTime` (source value 15:24, in minutes of the day) and the
session end `marketEndTime` (set in the base class outside `src/`). -/
structure Cfg where
  maxEntries : Nat
  exitTime : Nat
  marketEndTime : Nat
deriving DecidableEq, Repr

/-- The source's configuration: `maxEntries = 3`, `exitTime = 15:24`;
for the session end we use 15:30, the base-class value is outside
`src/` and no claim depends on it. -/
def defaultCfg : Cfg := ⟨3, 15 * 60 + 24, 15 * 60 + 30⟩

/-- The freshly reset strategy state (`__reset__`, lines 107-115). -/
def init : Strat :=
  ⟨State.LIVE, ∅, false, ∅, ∅, ∅, [], false, fun _ => ⟨false, false, false⟩, 0, [], 0⟩

/-- Python's `%` on numbers (sign of the divisor): `a % b = a - b*⌊a/b⌋`. -/
def pyMod (a b : ℚ) : ℚ := a - b * (⌊a / b⌋ : ℤ)

/-- `getRoundedOffPriceByTickSize` (lines 209-210):
`price - (price % self.tickSize)`, over exact rationals. -/
def getRoundedOffPriceByTickSize (tickSize price : ℚ) : ℚ :=
  price - pyMod price tickSize

/-- The protected limit price computed by `enterWithMarketProtection`
(lines 233-240): the last close moved against the trader by the
protection percentage and then rounded off by the tick size; buys use
`1 + pct/100`, sells `1 - pct/100`. -/
def protectedEntryLimitPrice (close pct tickSize : ℚ) (isBuy : Bool) : ℚ :=
  if isBuy then getRoundedOffPriceByTickSize tickSize (close * (1 + pct / 100))
  else getRoundedOffPriceByTickSize tickSize (close * (1 - pct / 100))

/-- The stop-loss percentage lookup of `onEnterOk` (lines 267-268):
`[value for time, value in stopLosses.items() if time < now]`, then the
last element of that list, or the default `20` when the list is empty.
Times are minutes of the day; the dict iterates in insertion order. -/
def stopLossLookup (schedule : List (Nat × Nat)) (now : Nat) : Nat :=
  (((schedule.filter fun p => decide (p.1 < now)).map Prod.snd).getLast?).getD 20

/-- The hardcoded `self.stopLosses` table (lines 69-93), with
`datetime.time` keys converted to minutes of the day. -/
def stopLosses : List (Nat × Nat) :=
  [(555, 40), (570, 40), (585, 40), (600, 40), (615, 40), (630, 45),
   (645, 50), (660, 50), (675, 50), (690, 50), (705, 50), (720, 50),
   (735, 50), (750, 50), (765, 50), (780, 60), (795, 70), (810, 80),
   (825, 90), (840, 100), (855, 100), (870, 100), (885, 100)]

/-- Update one leg's broker flags. -/
def setLeg (s : Strat) (l : Nat) (f : LegSt → LegSt) : Strat :=
  { s with legSt := fun j => if j = l then f (s.legSt j) else s.legSt j }

/-- The broker marks the leg's entry order as filled (pyalgotrade updates
the position's order state before dispatching the callback). -/
def setEntryFilled (s : Strat) (l : Nat) : Strat :=
  setLeg s l fun t => ⟨true, t.exitActive, t.exitFilled⟩

/-- The broker marks the leg's exit order as canceled. -/
def setExitInactive (s : Strat) (l : Nat) : Strat :=
  setLeg s l fun t => ⟨t.entryFilled, false, t.exitFilled⟩

/-- The broker marks the leg's exit order as filled. -/
def setExitFilled (s : Strat) (l : Nat) : Strat :=
  setLeg s l fun t => ⟨t.entryFilled, false, true⟩

/-- A new exit order for the leg becomes active on submission. -/
def setExitActive (s : Strat) (l : Nat) : Strat :=
  setLeg s l fun t => ⟨t.entryFilled, true, t.exitFilled⟩

/-- `self.pendingEntry.add(x)` where `x` is the return value of
`enterWithMarketProtection`: a position handle, or Python `None` when the
submission was skipped. -/
def addPendingEntry (s : Strat) (p : Option Nat) : Strat :=
  match p with
  | some l => { s with pendingEntry := insert l s.pendingEntry }
  | none => { s with pendingEntryNone := true }

/-- `self.positions.add(g)` where `g` is the return value of
`enterPositions`: a fresh `StraddlePosition` object, or Python `None`. -/
def addPosition (s : Strat) (g : Option StraddlePosition) : Strat :=
  match g with
  | some g => { s with positionsGroups := s.positionsGroups ++ [g] }
  | none => { s with positionsNone := true }

/-- `len(self.positions)`: the group objects are pairwise distinct Python
objects, `None` is a single element however often it is added. -/
def positionsLen (s : Strat) : Nat :=
  s.positionsGroups.length + (if s.positionsNone then 1 else 0)

/-- `enterWithMarketProtection` (lines 227-240): if no last bar is
available for the symbol the submission is skipped, only logged, and the
function returns `None`; otherwise a protected limit entry
(`enterLongLimit` for buys, `enterShortLimit` for sells) is submitted,
creating a fresh position handle that is returned. -/
def enterWithMarketProtection (s : Strat) (isBuy : Bool) (barAvailable : Bool) :
    Strat × Option Nat :=
  if barAvailable then
    ({ s with
        legSt := fun j => if j = s.nextLeg then ⟨false, false, false⟩ else s.legSt j,
        nextLeg := s.nextLeg + 1,
        submitted := s.submitted ++
          [if isBuy then Submission.entryLong s.nextLeg else Submission.entryShort s.nextLeg] },
      some s.nextLeg)
  else (s, none)

/-- `enterPositions` (lines 179-207).  The ATM strike is an input (the
feed and `getATMStrike` live outside the core); when it is `None` the
function returns `None` without touching any state.  Otherwise the phase
is set to PLACING_ORDERS, the four protected entries are submitted
(hedges buy, shorts sell; a missing bar skips that leg's submission), and
the four return values are added to `pendingEntry` unconditionally.
`entryCalls` is a ghost counter of invocations. -/
def enterPositions (s : Strat) (atm : Option Int) (bars : EntryBars) :
    Strat × Option StraddlePosition :=
  let s := { s with entryCalls := s.entryCalls + 1 }
  match atm with
  | none => (s, none)
  | some strike =>
    let s := { s with state := State.PLACING_ORDERS }
    let p1 := enterWithMarketProtection s true bars.ceHedge
    let p2 := enterWithMarketProtection p1.1 true bars.peHedge
    let p3 := enterWithMarketProtection p2.1 false bars.ceShort
    let p4 := enterWithMarketProtection p3.1 false bars.peShort
    let s := addPendingEntry p4.1 p1.2
    let s := addPendingEntry s p2.2
    let s := addPendingEntry s p3.2
    let s := addPendingEntry s p4.2
    (s, some ⟨p1.2, p2.2, p3.2, p4.2, strike⟩)

/-- `onResampledBars` (lines 165-177): `triggered` is constantly `True`;
when `len(self.positions)` equals `maxEntries` nothing happens, otherwise
`enterPositions` is invoked and its return value added to
`self.positions`. -/
def onResampledBars (cfg : Cfg) (s : Strat) (atm : Option Int) (bars : EntryBars) : Strat :=
  if positionsLen s = cfg.maxEntries then s
  else
    let p := enterPositions s atm bars
    addPosition p.1 p.2

/-- `getStraddlePosition` (lines 253-256): the list comprehension
evaluates `sp.ceShort` for every element of `self.positions`, so whenever
Python `None` is in the set it raises `AttributeError` (modelled by
`Except.error`); otherwise it returns the first group whose short legs
contain the position, or `None`. -/
def getStraddlePosition (s : Strat) (l : Nat) : Except Unit (Option StraddlePosition) :=
  if s.positionsNone then Except.error ()
  else Except.ok (s.positionsGroups.find? fun g =>
    decide (g.ceShort = some l) || decide (g.peShort = some l))

/-- `exitWithMarketProtection` (lines 212-225): with no last bar the exit
is skipped and only logged; otherwise a protected limit exit is submitted
for the leg, whose exit order becomes active. -/
def exitWithMarketProtection (s : Strat) (l : Nat) (barAvailable : Bool) : Strat :=
  if barAvailable then
    setExitActive { s with submitted := s.submitted ++ [Submission.exitLimit l] } l
  else s

/-- `position.cancelExit()`: an asynchronous cancel request; the exit
order stays active until the broker confirms the cancellation. -/
def requestCancelExit (s : Strat) (l : Nat) : Strat :=
  { s with submitted := s.submitted ++ [Submission.cancelExit l] }

/-- The set of currently active legs. Modelled from the spec:
`getActivePositions` lives in the pyalgotrade base strategy outside
`src/`; spec section 4.4 describes the active legs as those whose entry
filled and whose exit has not yet filled. -/
def activeLegs (s : Strat) : Finset Nat :=
  (Finset.range s.nextLeg).filter fun l =>
    (s.legSt l).entryFilled = true ∧ (s.legSt l).exitFilled = false

/-- The set of closed legs (exit filled); with `activeLegs` this feeds
the session-end bookkeeping check of `strategyLogic`. -/
def closedLegs (s : Strat) : Finset Nat :=
  (Finset.range s.nextLeg).filter fun l => (s.legSt l).exitFilled = true

/-- The body of the loop of `closeAllPositions` for one active leg: a leg
with a live exit order is put in both `pendingCancelExit` and
`pendingExit` and its exit is canceled; otherwise the leg is put in
`pendingExit` and exited with market protection. -/
def closeLeg (bars : Nat → Bool) (s : Strat) (l : Nat) : Strat :=
  if (s.legSt l).exitActive then
    requestCancelExit
      { s with
          pendingCancelExit := insert l s.pendingCancelExit,
          pendingExit := insert l s.pendingExit } l
  else
    exitWithMarketProtection { s with pendingExit := insert l s.pendingExit } l (bars l)

/-- The snapshot `list(self.getActivePositions())` in ascending leg
order (the Python set is iterated in some arbitrary order; the per-leg
effects of the loop are independent). -/
def activeLegsList (s : Strat) : List Nat :=
  (List.range s.nextLeg).filter fun l => (s.legSt l).entryFilled && !(s.legSt l).exitFilled

/-- `closeAllPositions` (lines 242-251): set the phase to SQUARING_OFF
and process the snapshot of active legs. -/
def closeAllPositions (s : Strat) (bars : Nat → Bool) : Strat :=
  let s := { s with state := State.SQUARING_OFF }
  (activeLegsList s).foldl (closeLeg bars) s

/-- `handlePlacingOrders` (lines 321-333): return unless all four pending
sets are empty (`len(self.pendingEntry)` counts a `None` element) and the
broker-side `isPendingOrdersCompleted` (base class, an input here) holds;
then EXITED if SQUARING_OFF and past the exit deadline, else LIVE if no
active legs, else ENTERED. -/
def handlePlacingOrders (cfg : Cfg) (s : Strat) (now : Nat) (pendingOrdersCompleted : Bool) :
    Strat :=
  if s.pendingEntry.card ≠ 0 ∨ s.pendingEntryNone = true ∨ s.pendingSLToCost.card ≠ 0 ∨
      s.pendingCancelExit.card ≠ 0 ∨ s.pendingExit.card ≠ 0 then s
  else if pendingOrdersCompleted = false then s
  else if s.state = State.SQUARING_OFF ∧ cfg.exitTime ≤ now then
    { s with state := State.EXITED }
  else if (activeLegs s).card = 0 then { s with state := State.LIVE }
  else { s with state := State.ENTERED }

/-- The session reset (`__reset__`, lines 107-115), reached from
`strategyLogic` at the session boundary: all tracker sets and the group
registry are cleared.  The phase reset is performed by the base class's
`reset` outside `src/`; modelled from the spec, which makes LIVE the
no-active-legs ready state. -/
def resetSession (s : Strat) : Strat :=
  { s with
      state := State.LIVE,
      pendingEntry := ∅, pendingEntryNone := false,
      pendingSLToCost := ∅, pendingCancelExit := ∅, pendingExit := ∅,
      positionsGroups := [], positionsNone := false }

/-- `strategyLogic` (lines 125-163), without the PnL reporting block:
run `handlePlacingOrders` when the phase is PLACING_ORDERS or
SQUARING_OFF; at or past the session end, reset if any leg is active or
closed; otherwise at or past the exit deadline, run `closeAllPositions`
if the phase is ENTERED. -/
def strategyLogic (cfg : Cfg) (s : Strat) (now : Nat) (pendingOrdersCompleted : Bool)
    (bars : Nat → Bool) : Strat :=
  let s :=
    if s.state = State.PLACING_ORDERS ∨ s.state = State.SQUARING_OFF then
      handlePlacingOrders cfg s now pendingOrdersCompleted
    else s
  if cfg.marketEndTime ≤ now then
    if (activeLegs s).card + (closedLegs s).card ≠ 0 then resetSession s else s
  else if cfg.exitTime ≤ now then
    if s.state = State.ENTERED then closeAllPositions s bars else s
  else s

/-- `onEnterOk` (lines 258-276): discard the leg from `pendingEntry`;
look the leg up among the short legs of the groups (raising when `None`
is in `self.positions`; the `Bool` result records the raise); when found,
compute the stop prices from the schedule and submit a stop-limit
protective exit for the leg. -/
def onEnterOk (s : Strat) (l : Nat) : Strat × Bool :=
  let s := { s with pendingEntry := s.pendingEntry.erase l }
  match getStraddlePosition s l with
  | Except.error _ => (s, true)
  | Except.ok none => (s, false)
  | Except.ok (some _) =>
    (setExitActive { s with submitted := s.submitted ++ [Submission.exitStopLimit l] } l,
      false)

/-- `onEnterCanceled` (lines 278-280): discard the leg from
`pendingEntry`; nothing else. -/
def onEnterCanceled (s : Strat) (l : Nat) : Strat :=
  { s with pendingEntry := s.pendingEntry.erase l }

/-- `onExitCanceled` (lines 282-297): discard the leg from
`pendingCancelExit`; if the leg is in `pendingSLToCost`, set the phase to
PLACING_ORDERS unless SQUARING_OFF, submit the stop at cost basis, and
discard the leg from `pendingSLToCost`; else if the leg is in
`pendingExit`, set the phase likewise and exit with market protection. -/
def onExitCanceled (s : Strat) (l : Nat) (barAvailable : Bool) : Strat :=
  let s := { s with pendingCancelExit := s.pendingCancelExit.erase l }
  if l ∈ s.pendingSLToCost then
    let s := if s.state ≠ State.SQUARING_OFF then { s with state := State.PLACING_ORDERS } else s
    let s := setExitActive { s with submitted := s.submitted ++ [Submission.exitStopLimit l] } l
    { s with pendingSLToCost := s.pendingSLToCost.erase l }
  else if l ∈ s.pendingExit then
    let s := if s.state ≠ State.SQUARING_OFF then { s with state := State.PLACING_ORDERS } else s
    exitWithMarketProtection s l barAvailable
  else s

/-- `onExitOk` (lines 299-319): discard the leg from `pendingExit`; stop
if SQUARING_OFF; locate the group (raising when `None` is in
`self.positions`); take the other short leg (`None.exitFilled()` raises
when that slot is a skipped submission); stop if its exit already filled;
if its protective exit is still active, set the phase to PLACING_ORDERS,
add it to `pendingSLToCost` and request its cancel. -/
def onExitOk (s : Strat) (l : Nat) : Strat × Bool :=
  let s := { s with pendingExit := s.pendingExit.erase l }
  if s.state = State.SQUARING_OFF then (s, false)
  else
    match getStraddlePosition s l with
    | Except.error _ => (s, true)
    | Except.ok none => (s, false)
    | Except.ok (some g) =>
      match (if some l ≠ g.ceShort then g.ceShort else g.peShort) with
      | none => (s, true)
      | some m =>
        if (s.legSt m).exitFilled then (s, false)
        else if (s.legSt m).exitActive then
          (requestCancelExit
            { s with
                state := State.PLACING_ORDERS,
                pendingSLToCost := insert m s.pendingSLToCost } m, false)
        else (s, false)

/-- The full entry-confirmed step: the broker marks the fill, then the
callback runs. -/
def stepEnterOk (s : Strat) (l : Nat) : Strat × Bool :=
  onEnterOk (setEntryFilled s l) l

/-- The full exit-canceled step: the broker marks the exit order
canceled, then the callback runs. -/
def stepExitCanceled (s : Strat) (l : Nat) (barAvailable : Bool) : Strat :=
  onExitCanceled (setExitInactive s l) l barAvailable

/-- The full exit-confirmed step: the broker marks the exit filled, then
the callback runs. -/
def stepExitOk (s : Strat) (l : Nat) : Strat × Bool :=
  onExitOk (setExitFilled s l) l

/-- The events of the single-threaded loop: the periodic driver tick
(with the current time, the broker's `isPendingOrdersCompleted` answer
and per-leg bar availability), the resampled-bar trigger (with the ATM
strike, when resolvable, and per-symbol bar availability), and the four
broker callbacks. -/
inductive Event where
  | tick (now : Nat) (pendingOrdersCompleted : Bool) (bars : Nat → Bool)
  | resampled (atm : Option Int) (bars : EntryBars)
  | enterOk (l : Nat)
  | enterCanceled (l : Nat)
  | exitOk (l : Nat)
  | exitCanceled (l : Nat) (barAvailable : Bool)

/-- One step of the event loop (an unhandled exception leaves the state
as mutated up to the raise, matching Python). -/
def step (cfg : Cfg) (s : Strat) (e : Event) : Strat :=
  match e with
  | Event.tick now pc bars => strategyLogic cfg s now pc bars
  | Event.resampled atm bars => onResampledBars cfg s atm bars
  | Event.enterOk l => (stepEnterOk s l).1
  | Event.enterCanceled l => onEnterCanceled s l
  | Event.exitOk l => (stepExitOk s l).1
  | Event.exitCanceled l bar => stepExitCanceled s l bar

/-- Run the event loop from the freshly initialized strategy. -/
def run (cfg : Cfg) (es : List Event) : Strat :=
  es.foldl (step cfg) init

/-- The strategy's own mutable state (the fields assigned in
`__reset__`): phase, the four pending sets (with the possible `None`
element of `pendingEntry`) and the `positions` registry — excluding the
broker-side leg flags and the submission log. -/
structure View where
  state : State
  pendingEntry : Finset Nat
  pendingEntryNone : Bool
  pendingSLToCost : Finset Nat
  pendingCancelExit : Finset Nat
  pendingExit : Finset Nat
  positionsGroups : List StraddlePosition
  positionsNone : Bool
deriving DecidableEq

/-- Project the strategy-owned state out of the full model state. -/
def Strat.view (s : Strat) : View :=
  ⟨s.state, s.pendingEntry, s.pendingEntryNone, s.pendingSLToCost, s.pendingCancelExit,
    s.pendingExit, s.positionsGroups, s.positionsNone⟩

/-- All pending-set members are legs that have been created. -/
def PendBounded (s : Strat) : Prop :=
  (∀ l ∈ s.pendingEntry, l < s.nextLeg) ∧ (∀ l ∈ s.pendingSLToCost, l < s.nextLeg) ∧
    (∀ l ∈ s.pendingCancelExit, l < s.nextLeg) ∧ (∀ l ∈ s.pendingExit, l < s.nextLeg)

/-- A leg awaiting entry confirmation has no filled entry and no active
exit order. -/
def EntryFresh (s : Strat) : Prop :=
  ∀ l ∈ s.pendingEntry, (s.legSt l).entryFilled = false ∧ (s.legSt l).exitActive = false

/-- No leg of `pendingEntry` is simultaneously in `pendingSLToCost`,
`pendingCancelExit` or `pendingExit`. -/
def EntryDisj (s : Strat) : Prop :=
  ∀ l ∈ s.pendingEntry, l ∉ s.pendingSLToCost ∧ l ∉ s.pendingCancelExit ∧ l ∉ s.pendingExit

/-- Legs named by a straddle group are all below the given allocation
bound. -/
def GroupLegsBounded (g : StraddlePosition) (n : Nat) : Prop :=
  (∀ r, g.ceHedge = some r → r < n) ∧ (∀ r, g.peHedge = some r → r < n) ∧
    (∀ r, g.ceShort = some r → r < n) ∧ (∀ r, g.peShort = some r → r < n)

/-- Every group in the registry names only legs that have been created. -/
def GroupsBounded (s : Strat) : Prop :=
  ∀ g ∈ s.positionsGroups, GroupLegsBounded g s.nextLeg

/-- The inductive invariant of the event loop used for the pending-set
separation property. -/
def Inv (s : Strat) : Prop :=
  PendBounded s ∧ EntryFresh s ∧ EntryDisj s ∧ GroupsBounded s

/-- All four pending sets are empty (the emptiness test of
`handlePlacingOrders`, with `pendingEntry` counting a `None` element). -/
def pendingSetsEmpty (s : Strat) : Bool :=
  (s.pendingEntry.card == 0) && !s.pendingEntryNone && (s.pendingSLToCost.card == 0) &&
    (s.pendingCancelExit.card == 0) && (s.pendingExit.card == 0)

/-- An event stays inside the trading session: driver ticks happen before
the session-end reset boundary. -/
def inSession (cfg : Cfg) : Event → Prop
  | Event.tick now _ _ => now < cfg.marketEndTime
  | _ => True

/-- Bar availability for all four legs. -/
def allBars : EntryBars := ⟨true, true, true, true⟩

/-- A concrete in-session schedule: one full entry whose four legs are
confirmed, a tick that recomputes the phase to ENTERED, the exit-deadline
tick that squares off (both short legs' stops are canceled, the hedges
are exited directly), a resampled bar that starts a second entry while
the unwind is still pending, and the fill of short leg 2's exit racing
its cancel. -/
def traceA : List Event :=
  [Event.resampled (some 100) allBars,
   Event.enterOk 0, Event.enterOk 1, Event.enterOk 2, Event.enterOk 3,
   Event.tick 900 true (fun _ => true),
   Event.tick 924 true (fun _ => true),
   Event.resampled (some 100) allBars,
   Event.exitOk 2]

/-- One full entry: legs 0 (ce hedge), 1 (pe hedge), 2 (ce short),
3 (pe short). -/
def traceB : List Event := [Event.resampled (some 100) allBars]

/-- Four trigger evaluations, each invoking `enterPositions` while the
ATM strike is unavailable. -/
def traceC : List Event :=
  [Event.resampled none allBars, Event.resampled none allBars,
   Event.resampled none allBars, Event.resampled none allBars]

/-- Three successful entries, filling `self.positions` to `maxEntries`. -/
def traceD : List Event :=
  [Event.resampled (some 100) allBars, Event.resampled (some 100) allBars,
   Event.resampled (some 100) allBars]

/-- The group of the witness state for the exit-confirmed handler. -/
def gC6 : StraddlePosition := ⟨some 0, some 1, some 2, some 3, 100⟩

/-- A concrete ENTERED state: one group with all four legs filled, the
two short legs carrying live protective stops. -/
def sC6 : Strat :=
  ⟨State.ENTERED, ∅, false, ∅, ∅, ∅, [gC6], false,
    fun j => if j = 2 ∨ j = 3 then ⟨true, true, false⟩
      else if j ≤ 1 then ⟨true, false, false⟩ else ⟨false, false, false⟩,
    4, [], 1⟩

/-- A state in which a trigger fired while the ATM strike was
unavailable: Python `None` is in `self.positions`. -/
def sC10 : Strat := run defaultCfg [Event.resampled none allBars]

theorem getRoundedOffPriceByTickSize_eq (t p : ℚ) :
    getRoundedOffPriceByTickSize t p = t * (⌊p / t⌋ : ℤ) := by
  unfold getRoundedOffPriceByTickSize pyMod; ring

theorem roundedOff_mono (t x y : ℚ) (ht : 0 < t) (h : x ≤ y) :
    getRoundedOffPriceByTickSize t x ≤ getRoundedOffPriceByTickSize t y := by
  rw [getRoundedOffPriceByTickSize_eq, getRoundedOffPriceByTickSize_eq]
  have h2 : x / t ≤ y / t := by gcongr
  have h3 : ⌊x / t⌋ ≤ ⌊y / t⌋ := Int.floor_le_floor h2
  have h4 : ((⌊x / t⌋ : ℤ) : ℚ) ≤ ((⌊y / t⌋ : ℤ) : ℚ) := by exact_mod_cast h3
  exact mul_le_mul_of_nonneg_left h4 ht.le

/-- C9 counterexample: the Protection Pricer is not strictly monotonic in
the protection percentage: for reference price 100, tick 1/20 and the pair
of percentages 1/100 < 2/100, the buy limit prices coincide (both 100),
because the tick floor collapses sub-tick differences. -/
theorem c9_counterexample :
    (1 : ℚ) / 100 < 2 / 100 ∧ (0 : ℚ) < 100 ∧ (0 : ℚ) < 1 / 20 ∧
      protectedEntryLimitPrice 100 (1 / 100) (1 / 20) true =
        protectedEntryLimitPrice 100 (2 / 100) (1 / 20) true := by
  refine ⟨by norm_num, by norm_num, by norm_num, ?_⟩
  have h1 : ⌊(100 * (1 + (1 : ℚ) / 100 / 100)) / (1 / 20)⌋ = 2000 := by
    rw [Int.floor_eq_iff]
    norm_num
  have h2 : ⌊(100 * (1 + (2 : ℚ) / 100 / 100)) / (1 / 20)⌋ = 2000 := by
    rw [Int.floor_eq_iff]
    norm_num
  simp only [protectedEntryLimitPrice, if_pos, getRoundedOffPriceByTickSize_eq, h1, h2]

/-- C9 (amended): the Protection Pricer is weakly monotonic in the
protection percentage: for every positive reference price and tick size
and percentages p1 le p2, increasing the percentage moves the tick-floored
limit price against the trader non-strictly (buy limit does not decrease,
sell limit does not increase). -/
theorem c9_amended_theorem (close p1 p2 tick : ℚ) (hclose : 0 < close) (htick : 0 < tick)
    (hp : p1 ≤ p2) :
    protectedEntryLimitPrice close p1 tick true ≤ protectedEntryLimitPrice close p2 tick true ∧
      protectedEntryLimitPrice close p2 tick false ≤ protectedEntryLimitPrice close p1 tick false := by
  constructor
  · simp only [protectedEntryLimitPrice, if_pos]
    exact roundedOff_mono _ _ _ htick (by nlinarith)
  · simp only [protectedEntryLimitPrice, if_neg]
    exact roundedOff_mono _ _ _ htick (by nlinarith)

/-- Witness for C9 (amended) at reference price 100, tick 1/20,
percentages 0 and 15. -/
theorem c9_amended_witness :
    protectedEntryLimitPrice 100 0 (1 / 20) true ≤ protectedEntryLimitPrice 100 15 (1 / 20) true ∧
      protectedEntryLimitPrice 100 15 (1 / 20) false ≤ protectedEntryLimitPrice 100 0 (1 / 20) false :=
  c9_amended_theorem 100 0 15 (1 / 20) (by norm_num) (by norm_num) (by norm_num)

/-- The spec scenario for the Protection Pricer evaluated over exact
rationals: reference price 100, protection 15 percent, tick 1/20, buy
gives exactly 115.  (Python evaluates the same expression in binary
floating point, where 100 * 1.15 = 114.99999999999999 and the tick
rounding then yields 114.95000000000001; see the C8 status note.) -/
theorem pricer_scenario_exact_arithmetic :
    protectedEntryLimitPrice 100 15 (1 / 20) true = 115 := by
  have h1 : ⌊(100 * (1 + (15 : ℚ) / 100)) / (1 / 20)⌋ = 2300 := by
    rw [Int.floor_eq_iff]
    norm_num
  rw [protectedEntryLimitPrice, if_pos rfl, getRoundedOffPriceByTickSize_eq, h1]
  norm_num

/-- C7: for every query time and every stop-loss schedule with strictly
increasing keys, the lookup returns the value associated with the greatest
schedule key strictly less than the query time, and returns the default
value 20 when no key is strictly less than the query time; a key equal to
the query time never qualifies, because the filter uses a strict
comparison. -/
theorem c7_theorem (schedule : List (Nat × Nat)) (now : Nat)
    (hsorted : schedule.Pairwise fun p q => p.1 < q.1) :
    ((∀ p ∈ schedule, ¬ p.1 < now) → stopLossLookup schedule now = 20) ∧
    (∀ p ∈ schedule, p.1 < now → (∀ q ∈ schedule, q.1 < now → q.1 ≤ p.1) →
      stopLossLookup schedule now = p.2) := by
  induction schedule with
  | nil =>
    refine ⟨fun _ => rfl, ?_⟩
    intro p hp
    simp at hp
  | cons a t ih =>
    rcases List.pairwise_cons.1 hsorted with ⟨ha, ht⟩
    obtain ⟨ih1, ih2⟩ := ih ht
    constructor
    · intro h
      have hfil : (a :: t).filter (fun p => decide (p.1 < now)) = [] := by
        rw [List.filter_eq_nil_iff]
        intro p hp
        simpa using h p hp
      unfold stopLossLookup
      rw [hfil]
      rfl
    · intro p hp hlt hmax
      rcases List.mem_cons.1 hp with rfl | hpt
      · have hnone : ∀ q ∈ t, ¬ q.1 < now := by
          intro q hq hqlt
          exact absurd (hmax q (List.mem_cons_of_mem _ hq) hqlt) (not_le.2 (ha q hq))
        have hfil : t.filter (fun x => decide (x.1 < now)) = [] := by
          rw [List.filter_eq_nil_iff]
          intro q hq
          simpa using hnone q hq
        unfold stopLossLookup
        rw [List.filter_cons, if_pos (by simp [hlt]), hfil]
        rfl
      · have hnow : a.1 < now := lt_trans (ha p hpt) hlt
        have hmax2 : ∀ q ∈ t, q.1 < now → q.1 ≤ p.1 := fun q hq h2 =>
          hmax q (List.mem_cons_of_mem _ hq) h2
        have hval := ih2 p hpt hlt hmax2
        unfold stopLossLookup at hval ⊢
        have hpmem : p ∈ t.filter (fun x => decide (x.1 < now)) :=
          List.mem_filter.2 ⟨hpt, by simp [hlt]⟩
        rcases hx : t.filter (fun x => decide (x.1 < now)) with _ | ⟨b, l2⟩
        · rw [hx] at hpmem
          exact absurd hpmem (List.not_mem_nil p)
        · rw [hx] at hval
          rw [List.filter_cons, if_pos (by simp [hnow]), hx, List.map_cons, List.map_cons,
            List.getLast?_cons_cons]
          rw [List.map_cons] at hval
          exact hval

/-- Witness for C7 on the source schedule at query time 9:20 (560
minutes): the greatest key strictly before it is 9:15 with value 40. -/
theorem c7_witness :
    stopLosses.Pairwise (fun p q => p.1 < q.1) ∧ stopLossLookup stopLosses 560 = 40 := by
  refine ⟨by decide, ?_⟩
  exact (c7_theorem stopLosses 560 (by decide)).2 (555, 40) (by decide) (by decide) (by decide)



/-- C1 counterexample: when the ce-hedge leg has no last bar, its
submission is skipped and `enterPositions` nevertheless adds the returned
Python `None` to `pendingEntry` (the `pendingEntryNone` flag flips from
false to true), so the pendingEntry set does not consist only of
successfully submitted legs. -/
theorem c1_counterexample :
    (enterPositions init (some 100) ⟨false, true, true, true⟩).2 =
        some ⟨none, some 0, some 1, some 2, 100⟩ ∧
      (enterPositions init (some 100) ⟨false, true, true, true⟩).1.pendingEntryNone = true ∧
      init.pendingEntryNone = false := by
  decide

/-- C1 (amended): for every entry attempt with a resolvable strike, each
slot of the returned group holds a leg exactly when that symbol had a last
bar (the submission happened); `pendingEntry` afterwards contains exactly
its previous elements plus the submitted legs of the group; and
additionally the Python `None` returned by every skipped submission is
added to `pendingEntry` (its `None`-membership flag becomes true whenever
some bar was missing). -/
theorem c1_amended_theorem (s : Strat) (k : Int) (bars : EntryBars) :
    ∃ grp, (enterPositions s (some k) bars).2 = some grp ∧
      (grp.ceHedge.isSome = bars.ceHedge ∧ grp.peHedge.isSome = bars.peHedge ∧
        grp.ceShort.isSome = bars.ceShort ∧ grp.peShort.isSome = bars.peShort) ∧
      (∀ l : Nat, l ∈ (enterPositions s (some k) bars).1.pendingEntry ↔
        (l ∈ s.pendingEntry ∨ grp.ceHedge = some l ∨ grp.peHedge = some l ∨
          grp.ceShort = some l ∨ grp.peShort = some l)) ∧
      (enterPositions s (some k) bars).1.pendingEntryNone =
        (s.pendingEntryNone || !bars.ceHedge || !bars.peHedge || !bars.ceShort || !bars.peShort) := by
  rcases bars with ⟨b1, b2, b3, b4⟩
  cases b1 <;> cases b2 <;> cases b3 <;> cases b4 <;>
    refine ⟨_, rfl, by simp [enterPositions, enterWithMarketProtection], fun l => ?_,
      by simp [enterPositions, enterWithMarketProtection, addPendingEntry]⟩ <;>
    · simp [enterPositions, enterWithMarketProtection, addPendingEntry, Finset.mem_insert, eq_comm]
      try tauto



theorem view_stepEnterOk (s : Strat) (l : Nat) :
    ((stepEnterOk s l).1).view =
      ⟨s.state, s.pendingEntry.erase l, s.pendingEntryNone, s.pendingSLToCost,
        s.pendingCancelExit, s.pendingExit, s.positionsGroups, s.positionsNone⟩ := by
  simp only [stepEnterOk, onEnterOk]
  split <;> rfl

theorem stepEnterOk_view_idem (s : Strat) (l : Nat) :
    ((stepEnterOk (stepEnterOk s l).1 l).1).view = ((stepEnterOk s l).1).view := by
  have h1 := view_stepEnterOk s l
  have h2 := view_stepEnterOk (stepEnterOk s l).1 l
  simp only [Strat.view, View.mk.injEq] at h1
  obtain ⟨e1, e2, e3, e4, e5, e6, e7, e8⟩ := h1
  rw [h2, view_stepEnterOk]
  simp [e1, e2, e3, e4, e5, e6, e7, e8, Finset.erase_idem]

theorem setLeg_state (s : Strat) (l : Nat) (f : LegSt → LegSt) : (setLeg s l f).state = s.state := rfl

theorem setLeg_pendingEntry (s : Strat) (l : Nat) (f : LegSt → LegSt) : (setLeg s l f).pendingEntry = s.pendingEntry := rfl

theorem setLeg_pendingEntryNone (s : Strat) (l : Nat) (f : LegSt → LegSt) : (setLeg s l f).pendingEntryNone = s.pendingEntryNone := rfl

theorem setLeg_pendingSLToCost (s : Strat) (l : Nat) (f : LegSt → LegSt) : (setLeg s l f).pendingSLToCost = s.pendingSLToCost := rfl

theorem setLeg_pendingCancelExit (s : Strat) (l : Nat) (f : LegSt → LegSt) : (setLeg s l f).pendingCancelExit = s.pendingCancelExit := rfl

theorem setLeg_pendingExit (s : Strat) (l : Nat) (f : LegSt → LegSt) : (setLeg s l f).pendingExit = s.pendingExit := rfl

theorem setLeg_positionsGroups (s : Strat) (l : Nat) (f : LegSt → LegSt) : (setLeg s l f).positionsGroups = s.positionsGroups := rfl

theorem setLeg_positionsNone (s : Strat) (l : Nat) (f : LegSt → LegSt) : (setLeg s l f).positionsNone = s.positionsNone := rfl

theorem setLeg_nextLeg (s : Strat) (l : Nat) (f : LegSt → LegSt) : (setLeg s l f).nextLeg = s.nextLeg := rfl

theorem setLeg_submitted (s : Strat) (l : Nat) (f : LegSt → LegSt) : (setLeg s l f).submitted = s.submitted := rfl

theorem setLeg_legSt (s : Strat) (l : Nat) (f : LegSt → LegSt) (j : Nat) :
    (setLeg s l f).legSt j = if j = l then f (s.legSt j) else s.legSt j := rfl

theorem getStraddlePosition_eq (s : Strat) (l : Nat) :
    getStraddlePosition s l = if s.positionsNone = true then Except.error () else
      Except.ok (s.positionsGroups.find? fun g =>
        decide (g.ceShort = some l) || decide (g.peShort = some l)) := by
  unfold getStraddlePosition
  rfl

theorem stepExitOk_view_idem (s : Strat) (l : Nat) :
    ((stepExitOk (stepExitOk s l).1 l).1).view = ((stepExitOk s l).1).view := by
  by_cases hsq : s.state = State.SQUARING_OFF
  · simp [stepExitOk, onExitOk, setExitFilled, setLeg_state, hsq, Strat.view, Finset.erase_idem,
      setLeg_pendingEntry, setLeg_pendingEntryNone, setLeg_pendingSLToCost,
      setLeg_pendingCancelExit, setLeg_pendingExit, setLeg_positionsGroups, setLeg_positionsNone]
  · by_cases hn : s.positionsNone = true
    · simp [stepExitOk, onExitOk, setExitFilled, getStraddlePosition_eq, setLeg_state, hsq, hn,
        Strat.view, Finset.erase_idem, setLeg_pendingEntry, setLeg_pendingEntryNone,
        setLeg_pendingSLToCost, setLeg_pendingCancelExit, setLeg_pendingExit,
        setLeg_positionsGroups, setLeg_positionsNone]
    · rcases hf : s.positionsGroups.find? (fun g =>
          decide (g.ceShort = some l) || decide (g.peShort = some l)) with _ | g
      · simp [stepExitOk, onExitOk, setExitFilled, getStraddlePosition_eq, setLeg_state, hsq, hn,
          hf, Strat.view, Finset.erase_idem, setLeg_pendingEntry, setLeg_pendingEntryNone,
          setLeg_pendingSLToCost, setLeg_pendingCancelExit, setLeg_pendingExit,
          setLeg_positionsGroups, setLeg_positionsNone]
      · rcases ho : (if some l ≠ g.ceShort then g.ceShort else g.peShort) with _ | m
        · simp [stepExitOk, onExitOk, setExitFilled, setExitActive, requestCancelExit,
          getStraddlePosition_eq, setLeg_state, setLeg_pendingEntry, setLeg_pendingEntryNone,
          setLeg_pendingSLToCost, setLeg_pendingCancelExit, setLeg_pendingExit,
          setLeg_positionsGroups, setLeg_positionsNone, setLeg_legSt, Strat.view,
          Finset.erase_idem, Finset.insert_idem, hsq, hn, hf, ho]
        · by_cases hml : m = l
          · subst hml
            simp [stepExitOk, onExitOk, setExitFilled, setExitActive, requestCancelExit,
          getStraddlePosition_eq, setLeg_state, setLeg_pendingEntry, setLeg_pendingEntryNone,
          setLeg_pendingSLToCost, setLeg_pendingCancelExit, setLeg_pendingExit,
          setLeg_positionsGroups, setLeg_positionsNone, setLeg_legSt, Strat.view,
          Finset.erase_idem, Finset.insert_idem, hsq, hn, hf, ho]
          · by_cases hfil : (s.legSt m).exitFilled = true
            · simp [stepExitOk, onExitOk, setExitFilled, setExitActive, requestCancelExit,
          getStraddlePosition_eq, setLeg_state, setLeg_pendingEntry, setLeg_pendingEntryNone,
          setLeg_pendingSLToCost, setLeg_pendingCancelExit, setLeg_pendingExit,
          setLeg_positionsGroups, setLeg_positionsNone, setLeg_legSt, Strat.view,
          Finset.erase_idem, Finset.insert_idem, hsq, hn, hf, ho, hml, hfil]
            · by_cases hact : (s.legSt m).exitActive = true
              · simp [stepExitOk, onExitOk, setExitFilled, setExitActive, requestCancelExit,
          getStraddlePosition_eq, setLeg_state, setLeg_pendingEntry, setLeg_pendingEntryNone,
          setLeg_pendingSLToCost, setLeg_pendingCancelExit, setLeg_pendingExit,
          setLeg_positionsGroups, setLeg_positionsNone, setLeg_legSt, Strat.view,
          Finset.erase_idem, Finset.insert_idem, hsq, hn, hf, ho, hml, hfil, hact]
              · simp [stepExitOk, onExitOk, setExitFilled, setExitActive, requestCancelExit,
          getStraddlePosition_eq, setLeg_state, setLeg_pendingEntry, setLeg_pendingEntryNone,
          setLeg_pendingSLToCost, setLeg_pendingCancelExit, setLeg_pendingExit,
          setLeg_positionsGroups, setLeg_positionsNone, setLeg_legSt, Strat.view,
          Finset.erase_idem, Finset.insert_idem, hsq, hn, hf, ho, hml, hfil, hact]

theorem onEnterCanceled_view_idem (s : Strat) (l : Nat) :
    (onEnterCanceled (onEnterCanceled s l) l).view = (onEnterCanceled s l).view := by
  simp [onEnterCanceled, Strat.view, Finset.erase_idem]

theorem stepExitCanceled_view_idem (s : Strat) (l : Nat) (bar : Bool) :
    (stepExitCanceled (stepExitCanceled s l bar) l bar).view = (stepExitCanceled s l bar).view := by
  by_cases hsl : l ∈ s.pendingSLToCost <;> by_cases hpe : l ∈ s.pendingExit <;>
    by_cases hsq : s.state = State.SQUARING_OFF <;> cases bar <;>
      simp [stepExitCanceled, onExitCanceled, exitWithMarketProtection, setExitInactive,
        setExitActive, setLeg_state, setLeg_pendingEntry, setLeg_pendingEntryNone,
      setLeg_pendingSLToCost, setLeg_pendingCancelExit, setLeg_pendingExit,
      setLeg_positionsGroups, setLeg_positionsNone, setLeg_legSt, Strat.view, hsl, hpe, hsq, Finset.erase_idem, Finset.mem_erase]

/-- C4 (amended): the strategy-owned state (phase, the four pending
sets including the `None` membership of `pendingEntry`, and the group
registry) is idempotent under duplicate delivery of each of the four
callbacks; however the order submissions are not idempotent (see the
counterexample), so full idempotence fails. -/
theorem c4_amended_theorem (cfg : Cfg) (s : Strat) (l : Nat) (bar : Bool) :
    (step cfg (step cfg s (Event.enterOk l)) (Event.enterOk l)).view =
        (step cfg s (Event.enterOk l)).view ∧
      (step cfg (step cfg s (Event.enterCanceled l)) (Event.enterCanceled l)).view =
        (step cfg s (Event.enterCanceled l)).view ∧
      (step cfg (step cfg s (Event.exitOk l)) (Event.exitOk l)).view =
        (step cfg s (Event.exitOk l)).view ∧
      (step cfg (step cfg s (Event.exitCanceled l bar)) (Event.exitCanceled l bar)).view =
        (step cfg s (Event.exitCanceled l bar)).view :=
  ⟨stepEnterOk_view_idem s l, onEnterCanceled_view_idem s l, stepExitOk_view_idem s l,
    stepExitCanceled_view_idem s l bar⟩

/-- C4 counterexample: delivering the entry-confirmed event for short
leg 2 twice in a row submits a second protective stop-limit order, so the
orders submitted differ from a single delivery: the handlers are not
idempotent in their order submissions. -/
theorem c4_counterexample :
    (run defaultCfg (traceB ++ [Event.enterOk 2, Event.enterOk 2])).submitted ≠
      (run defaultCfg (traceB ++ [Event.enterOk 2])).submitted := by
  decide

/-- C6: when an exit-confirmed event arrives for a short leg of a group
(the group lookup succeeds and the paired short-leg slot holds a leg m),
the leg is removed from pendingExit; if the phase is SQUARING_OFF nothing
else happens; otherwise if the paired leg's exit already filled nothing
else happens; otherwise if the paired leg's protective exit is still
active, a cancel is requested for it, it is added to pendingSLToCost, and
the phase is set to PLACING_ORDERS. -/
theorem c6_theorem (s : Strat) (l m : Nat) (g : StraddlePosition)
    (hfind : getStraddlePosition s l = Except.ok (some g))
    (hother : (if some l ≠ g.ceShort then g.ceShort else g.peShort) = some m)
    (hml : m ≠ l) :
    (stepExitOk s l).1.pendingExit = s.pendingExit.erase l ∧
    (s.state = State.SQUARING_OFF →
      (stepExitOk s l).1.state = s.state ∧
      (stepExitOk s l).1.pendingSLToCost = s.pendingSLToCost ∧
      (stepExitOk s l).1.submitted = s.submitted) ∧
    (s.state ≠ State.SQUARING_OFF → (s.legSt m).exitFilled = true →
      (stepExitOk s l).1.state = s.state ∧
      (stepExitOk s l).1.pendingSLToCost = s.pendingSLToCost ∧
      (stepExitOk s l).1.submitted = s.submitted) ∧
    (s.state ≠ State.SQUARING_OFF → (s.legSt m).exitFilled = false →
      (s.legSt m).exitActive = true →
      (stepExitOk s l).1.state = State.PLACING_ORDERS ∧
      (stepExitOk s l).1.pendingSLToCost = insert m s.pendingSLToCost ∧
      (stepExitOk s l).1.submitted = s.submitted ++ [Submission.cancelExit m]) := by
  rw [getStraddlePosition_eq] at hfind
  by_cases hn : s.positionsNone = true
  · rw [if_pos hn] at hfind
    exact absurd hfind (by simp)
  · rw [if_neg hn] at hfind
    have hf : s.positionsGroups.find? (fun g =>
        decide (g.ceShort = some l) || decide (g.peShort = some l)) = some g := by
      simpa using hfind
    have hpe : (stepExitOk s l).1.pendingExit = s.pendingExit.erase l := by
      simp only [stepExitOk, onExitOk, setExitFilled, setExitActive, requestCancelExit,
        getStraddlePosition_eq, setLeg_state, setLeg_pendingEntry, setLeg_pendingEntryNone,
        setLeg_pendingSLToCost, setLeg_pendingCancelExit, setLeg_pendingExit,
        setLeg_positionsGroups, setLeg_positionsNone, setLeg_legSt, setLeg_submitted,
        setLeg_nextLeg]
      split_ifs <;> simp [hf, hother] <;> split_ifs <;> rfl
    refine ⟨hpe, fun hsq => ?_, fun hsq hfil => ?_, fun hsq hfil hact => ?_⟩ <;>
      simp [stepExitOk, onExitOk, setExitFilled, setExitActive, requestCancelExit,
        getStraddlePosition_eq, setLeg_state, setLeg_pendingEntry, setLeg_pendingEntryNone,
        setLeg_pendingSLToCost, setLeg_pendingCancelExit, setLeg_pendingExit,
        setLeg_positionsGroups, setLeg_positionsNone, setLeg_legSt, setLeg_submitted,
        setLeg_nextLeg, hn, hf, hother, hml, hsq, *]

/-- Witness for C6: in the concrete ENTERED state `sC6`, the exit fill
of short leg 2 cancels leg 3's live stop, adds leg 3 to pendingSLToCost
and sets the phase to PLACING_ORDERS. -/
theorem c6_witness :
    (stepExitOk sC6 2).1.pendingExit = sC6.pendingExit.erase 2 ∧
      (stepExitOk sC6 2).1.state = State.PLACING_ORDERS ∧
      (stepExitOk sC6 2).1.pendingSLToCost = insert 3 sC6.pendingSLToCost ∧
      (stepExitOk sC6 2).1.submitted = sC6.submitted ++ [Submission.cancelExit 3] := by
  obtain ⟨h1, _, _, h4⟩ := c6_theorem sC6 2 3 gC6 (by rfl) (by rfl) (by decide)
  obtain ⟨h41, h42, h43⟩ := h4 (by decide) (by rfl) (by rfl)
  exact ⟨h1, h41, h42, h43⟩

theorem ewmp_true (s : Strat) (isBuy : Bool) :
    enterWithMarketProtection s isBuy true =
      ({ s with
          legSt := fun j => if j = s.nextLeg then ⟨false, false, false⟩ else s.legSt j,
          nextLeg := s.nextLeg + 1,
          submitted := s.submitted ++
            [if isBuy then Submission.entryLong s.nextLeg else Submission.entryShort s.nextLeg] },
        some s.nextLeg) := rfl

theorem ewmp_false (s : Strat) (isBuy : Bool) :
    enterWithMarketProtection s isBuy false = (s, none) := rfl

theorem handlePlacingOrders_eq (cfg : Cfg) (s : Strat) (now : Nat) (pc : Bool) :
    handlePlacingOrders cfg s now pc =
      { s with state := (handlePlacingOrders cfg s now pc).state } := by
  unfold handlePlacingOrders
  split_ifs <;> rfl

theorem closeLeg_positionsNone (bars : Nat → Bool) (s : Strat) (l : Nat) :
    (closeLeg bars s l).positionsNone = s.positionsNone := by
  unfold closeLeg exitWithMarketProtection requestCancelExit
  split_ifs <;> simp [setExitActive, setLeg_positionsNone]

theorem closeFold_positionsNone (bars : Nat → Bool) (todo : List Nat) (s : Strat) :
    (todo.foldl (closeLeg bars) s).positionsNone = s.positionsNone := by
  induction todo generalizing s with
  | nil => rfl
  | cons a t ih => rw [List.foldl_cons, ih, closeLeg_positionsNone]

theorem closeAllPositions_positionsNone (s : Strat) (bars : Nat → Bool) :
    (closeAllPositions s bars).positionsNone = s.positionsNone := by
  unfold closeAllPositions
  rw [closeFold_positionsNone]

theorem addPendingEntry_positionsNone (s : Strat) (p : Option Nat) :
    (addPendingEntry s p).positionsNone = s.positionsNone := by
  cases p <;> rfl

theorem enterPositions_positionsNone (s : Strat) (atm : Option Int) (bars : EntryBars) :
    (enterPositions s atm bars).1.positionsNone = s.positionsNone := by
  rcases bars with ⟨b1, b2, b3, b4⟩
  cases atm
  · rfl
  · cases b1 <;> cases b2 <;> cases b3 <;> cases b4 <;>
      simp [enterPositions, ewmp_true, ewmp_false, addPendingEntry_positionsNone]

theorem stepEnterOk_positionsNone (s : Strat) (l : Nat) :
    (stepEnterOk s l).1.positionsNone = s.positionsNone := by
  simp only [stepEnterOk, onEnterOk]
  split <;> simp [setExitActive, setLeg_positionsNone, setEntryFilled]

theorem stepExitOk_positionsNone (s : Strat) (l : Nat) :
    (stepExitOk s l).1.positionsNone = s.positionsNone := by
  by_cases hsq : s.state = State.SQUARING_OFF
  · simp [stepExitOk, onExitOk, setExitFilled, setLeg_state, setLeg_positionsNone, hsq]
  · by_cases hn : s.positionsNone = true
    · simp [stepExitOk, onExitOk, setExitFilled, getStraddlePosition_eq, setLeg_state,
        setLeg_positionsNone, hsq, hn]
    · rcases hf : s.positionsGroups.find? (fun g =>
          decide (g.ceShort = some l) || decide (g.peShort = some l)) with _ | g
      · simp [stepExitOk, onExitOk, setExitFilled, getStraddlePosition_eq, setLeg_state,
          setLeg_positionsNone, setLeg_positionsGroups, hsq, hn, hf]
      · rcases ho : (if some l ≠ g.ceShort then g.ceShort else g.peShort) with _ | m
        · simp [stepExitOk, onExitOk, setExitFilled, getStraddlePosition_eq, setLeg_state,
            setLeg_positionsNone, setLeg_positionsGroups, hsq, hn, hf, ho]
        · simp only [stepExitOk, onExitOk, setExitFilled, setExitActive, requestCancelExit,
            getStraddlePosition_eq, setLeg_state, setLeg_positionsNone, setLeg_positionsGroups,
            setLeg_legSt, hsq, hn, hf, ho]
          simp [hsq, hn, hf, ho]
          split_ifs <;> rfl

theorem stepExitCanceled_positionsNone (s : Strat) (l : Nat) (bar : Bool) :
    (stepExitCanceled s l bar).positionsNone = s.positionsNone := by
  simp only [stepExitCanceled, onExitCanceled, exitWithMarketProtection]
  split_ifs <;> simp [setExitActive, setExitInactive, setLeg_positionsNone]

theorem strategyLogic_positionsNone (cfg : Cfg) (s : Strat) (now : Nat) (pc : Bool)
    (bars : Nat → Bool) (hsess : now < cfg.marketEndTime) :
    (strategyLogic cfg s now pc bars).positionsNone = s.positionsNone := by
  unfold strategyLogic
  have hno : ¬ cfg.marketEndTime ≤ now := not_le.2 hsess
  have hh : ∀ t : Strat, (handlePlacingOrders cfg t now pc).positionsNone = t.positionsNone := by
    intro t
    rw [handlePlacingOrders_eq]
  split_ifs <;> simp [hno, hh, closeAllPositions_positionsNone] <;> split_ifs <;>
    simp [hno, hh, closeAllPositions_positionsNone]

/-- C10: when the ATM strike is unavailable, `enterPositions` returns
`None` and `onResampledBars` adds `None` to the positions set; from then
on (the `None` membership persists across in-session events), every call
to `getStraddlePosition` raises (dereferences `None.ceShort`) instead of
returning, so the entry-confirmed handler raises, and the exit-confirmed
handler raises whenever the phase is not SQUARING_OFF. -/
theorem c10_theorem (cfg : Cfg) (s : Strat) (l : Nat) (bars : EntryBars) (e : Event) :
    ((enterPositions s none bars).2 = none) ∧
      (positionsLen s ≠ cfg.maxEntries → (onResampledBars cfg s none bars).positionsNone = true) ∧
      (s.positionsNone = true → getStraddlePosition s l = Except.error ()) ∧
      (s.positionsNone = true → (stepEnterOk s l).2 = true) ∧
      (s.positionsNone = true → s.state ≠ State.SQUARING_OFF → (stepExitOk s l).2 = true) ∧
      (s.positionsNone = true → inSession cfg e → (step cfg s e).positionsNone = true) := by
  refine ⟨rfl, fun hlen => ?_, fun hn => ?_, fun hn => ?_, fun hn hsq => ?_, fun hn hsess => ?_⟩
  · simp [onResampledBars, hlen, addPosition, enterPositions]
  · rw [getStraddlePosition_eq, if_pos hn]
  · simp [stepEnterOk, onEnterOk, getStraddlePosition_eq, setEntryFilled, setLeg_positionsNone, hn]
  · simp [stepExitOk, onExitOk, getStraddlePosition_eq, setExitFilled, setLeg_positionsNone,
      setLeg_state, hn, hsq]
  · cases e with
    | tick now pc bars2 => rw [step, strategyLogic_positionsNone cfg s now pc bars2 hsess, hn]
    | resampled atm bars2 =>
      simp only [step, onResampledBars]
      split_ifs with hg
      · exact hn
      · rcases hp : (enterPositions s atm bars2).2 with _ | g
        · simp [addPosition, hp]
        · simp [addPosition, hp, enterPositions_positionsNone, hn]
    | enterOk l2 => rw [step, stepEnterOk_positionsNone, hn]
    | enterCanceled l2 => rw [step]; exact hn
    | exitOk l2 => rw [step, stepExitOk_positionsNone, hn]
    | exitCanceled l2 bar => rw [step, stepExitCanceled_positionsNone, hn]

theorem ewmp_facts (s : Strat) (isBuy bar : Bool) :
    (enterWithMarketProtection s isBuy bar).1.pendingEntry = s.pendingEntry ∧
    (enterWithMarketProtection s isBuy bar).1.pendingSLToCost = s.pendingSLToCost ∧
    (enterWithMarketProtection s isBuy bar).1.pendingCancelExit = s.pendingCancelExit ∧
    (enterWithMarketProtection s isBuy bar).1.pendingExit = s.pendingExit ∧
    (enterWithMarketProtection s isBuy bar).1.positionsGroups = s.positionsGroups ∧
    s.nextLeg ≤ (enterWithMarketProtection s isBuy bar).1.nextLeg ∧
    (∀ j, j < s.nextLeg → (enterWithMarketProtection s isBuy bar).1.legSt j = s.legSt j) ∧
    (∀ r, (enterWithMarketProtection s isBuy bar).2 = some r →
      s.nextLeg ≤ r ∧ r < (enterWithMarketProtection s isBuy bar).1.nextLeg ∧
        (enterWithMarketProtection s isBuy bar).1.legSt r = ⟨false, false, false⟩) := by
  cases bar
  · simp [ewmp_false]
  · refine ⟨rfl, rfl, rfl, rfl, rfl, by simp [ewmp_true], fun j hj => ?_, fun r hr => ?_⟩
    · simp only [ewmp_true]
      exact if_neg (by omega)
    · simp only [ewmp_true] at hr ⊢
      obtain rfl : s.nextLeg = r := by simpa using hr
      exact ⟨le_refl _, by omega, if_pos rfl⟩

theorem addPendingEntry_facts (s : Strat) (p : Option Nat) :
    (addPendingEntry s p).pendingSLToCost = s.pendingSLToCost ∧
    (addPendingEntry s p).pendingCancelExit = s.pendingCancelExit ∧
    (addPendingEntry s p).pendingExit = s.pendingExit ∧
    (addPendingEntry s p).positionsGroups = s.positionsGroups ∧
    (addPendingEntry s p).nextLeg = s.nextLeg ∧
    (addPendingEntry s p).legSt = s.legSt ∧
    (∀ j, j ∈ (addPendingEntry s p).pendingEntry ↔ (j ∈ s.pendingEntry ∨ p = some j)) := by
  cases p with
  | none => simp [addPendingEntry]
  | some v =>
    refine ⟨rfl, rfl, rfl, rfl, rfl, rfl, fun j => ?_⟩
    simp only [addPendingEntry, Finset.mem_insert, Option.some.injEq]
    constructor
    · rintro (rfl | h)
      · exact Or.inr rfl
      · exact Or.inl h
    · rintro (h | rfl)
      · exact Or.inr h
      · exact Or.inl rfl

theorem groupLegsBounded_mono (g : StraddlePosition) (n m : Nat) (hnm : n ≤ m)
    (h : GroupLegsBounded g n) : GroupLegsBounded g m :=
  ⟨fun r hr => lt_of_lt_of_le (h.1 r hr) hnm, fun r hr => lt_of_lt_of_le (h.2.1 r hr) hnm,
    fun r hr => lt_of_lt_of_le (h.2.2.1 r hr) hnm, fun r hr => lt_of_lt_of_le (h.2.2.2 r hr) hnm⟩

theorem entryChain_facts (s s1 s2 s3 s4 : Strat) (b1 b2 b3 b4 : Bool)
    (r1 r2 r3 r4 : Option Nat)
    (e1 : enterWithMarketProtection s true b1 = (s1, r1))
    (e2 : enterWithMarketProtection s1 true b2 = (s2, r2))
    (e3 : enterWithMarketProtection s2 false b3 = (s3, r3))
    (e4 : enterWithMarketProtection s3 false b4 = (s4, r4))
    (h : Inv s) :
    Inv (addPendingEntry (addPendingEntry (addPendingEntry (addPendingEntry s4 r1) r2) r3) r4) ∧
    (addPendingEntry (addPendingEntry (addPendingEntry (addPendingEntry s4 r1) r2) r3)
        r4).positionsGroups = s.positionsGroups ∧
    s.nextLeg ≤
      (addPendingEntry (addPendingEntry (addPendingEntry (addPendingEntry s4 r1) r2) r3)
        r4).nextLeg ∧
    (∀ j, r1 = some j ∨ r2 = some j ∨ r3 = some j ∨ r4 = some j →
      (addPendingEntry (addPendingEntry (addPendingEntry (addPendingEntry s4 r1) r2) r3)
        r4).nextLeg > j) := by
  obtain ⟨⟨hbe, hbs, hbc, hbx⟩, hf, hd, hg⟩ := h
  have F1 := ewmp_facts s true b1
  rw [e1] at F1
  have F2 := ewmp_facts s1 true b2
  rw [e2] at F2
  have F3 := ewmp_facts s2 false b3
  rw [e3] at F3
  have F4 := ewmp_facts s3 false b4
  rw [e4] at F4
  obtain ⟨f1pe, f1sl, f1ce, f1px, f1gr, f1nl, f1leg, f1r⟩ := F1
  obtain ⟨f2pe, f2sl, f2ce, f2px, f2gr, f2nl, f2leg, f2r⟩ := F2
  obtain ⟨f3pe, f3sl, f3ce, f3px, f3gr, f3nl, f3leg, f3r⟩ := F3
  obtain ⟨f4pe, f4sl, f4ce, f4px, f4gr, f4nl, f4leg, f4r⟩ := F4
  have hn1 : s.nextLeg ≤ s1.nextLeg := f1nl
  have hn2 : s1.nextLeg ≤ s2.nextLeg := f2nl
  have hn3 : s2.nextLeg ≤ s3.nextLeg := f3nl
  have hn4 : s3.nextLeg ≤ s4.nextLeg := f4nl
  have hn : s.nextLeg ≤ s4.nextLeg := le_trans hn1 (le_trans hn2 (le_trans hn3 hn4))
  have hleg4 : ∀ j, j < s.nextLeg → s4.legSt j = s.legSt j := by
    intro j hj
    rw [f4leg j (lt_of_lt_of_le hj (le_trans hn1 (le_trans hn2 hn3))),
      f3leg j (lt_of_lt_of_le hj (le_trans hn1 hn2)), f2leg j (lt_of_lt_of_le hj hn1), f1leg j hj]
  have hres : ∀ j, r1 = some j ∨ r2 = some j ∨ r3 = some j ∨ r4 = some j →
      s.nextLeg ≤ j ∧ j < s4.nextLeg ∧ s4.legSt j = ⟨false, false, false⟩ := by
    intro j hj
    rcases hj with hj | hj | hj | hj
    · obtain ⟨ha, hb2, hc⟩ := f1r j hj
      refine ⟨ha, lt_of_lt_of_le hb2 (le_trans hn2 (le_trans hn3 hn4)), ?_⟩
      rw [f4leg j (lt_of_lt_of_le hb2 (le_trans hn2 hn3)), f3leg j (lt_of_lt_of_le hb2 hn2),
        f2leg j hb2, hc]
    · obtain ⟨ha, hb2, hc⟩ := f2r j hj
      refine ⟨le_trans hn1 ha, lt_of_lt_of_le hb2 (le_trans hn3 hn4), ?_⟩
      rw [f4leg j (lt_of_lt_of_le hb2 hn3), f3leg j hb2, hc]
    · obtain ⟨ha, hb2, hc⟩ := f3r j hj
      refine ⟨le_trans hn1 (le_trans hn2 ha), lt_of_lt_of_le hb2 hn4, ?_⟩
      rw [f4leg j hb2, hc]
    · obtain ⟨ha, hb2, hc⟩ := f4r j hj
      exact ⟨le_trans hn1 (le_trans hn2 (le_trans hn3 ha)), hb2, hc⟩
  have hsets : s4.pendingEntry = s.pendingEntry ∧ s4.pendingSLToCost = s.pendingSLToCost ∧
      s4.pendingCancelExit = s.pendingCancelExit ∧ s4.pendingExit = s.pendingExit ∧
      s4.positionsGroups = s.positionsGroups := by
    rw [f4pe, f3pe, f2pe, f1pe, f4sl, f3sl, f2sl, f1sl, f4ce, f3ce, f2ce, f1ce,
      f4px, f3px, f2px, f1px, f4gr, f3gr, f2gr, f1gr]
    exact ⟨rfl, rfl, rfl, rfl, rfl⟩
  obtain ⟨hs4pe, hs4sl, hs4ce, hs4px, hs4gr⟩ := hsets
  obtain ⟨a1sl, a1ce, a1px, a1gr, a1nl, a1leg, a1pe⟩ := addPendingEntry_facts s4 r1
  obtain ⟨a2sl, a2ce, a2px, a2gr, a2nl, a2leg, a2pe⟩ := addPendingEntry_facts (addPendingEntry s4 r1) r2
  obtain ⟨a3sl, a3ce, a3px, a3gr, a3nl, a3leg, a3pe⟩ :=
    addPendingEntry_facts (addPendingEntry (addPendingEntry s4 r1) r2) r3
  obtain ⟨a4sl, a4ce, a4px, a4gr, a4nl, a4leg, a4pe⟩ :=
    addPendingEntry_facts (addPendingEntry (addPendingEntry (addPendingEntry s4 r1) r2) r3) r4
  have hAsl : (addPendingEntry (addPendingEntry (addPendingEntry (addPendingEntry s4 r1) r2) r3)
      r4).pendingSLToCost = s.pendingSLToCost := by rw [a4sl, a3sl, a2sl, a1sl, hs4sl]
  have hAce : (addPendingEntry (addPendingEntry (addPendingEntry (addPendingEntry s4 r1) r2) r3)
      r4).pendingCancelExit = s.pendingCancelExit := by rw [a4ce, a3ce, a2ce, a1ce, hs4ce]
  have hApx : (addPendingEntry (addPendingEntry (addPendingEntry (addPendingEntry s4 r1) r2) r3)
      r4).pendingExit = s.pendingExit := by rw [a4px, a3px, a2px, a1px, hs4px]
  have hAgr : (addPendingEntry (addPendingEntry (addPendingEntry (addPendingEntry s4 r1) r2) r3)
      r4).positionsGroups = s.positionsGroups := by rw [a4gr, a3gr, a2gr, a1gr, hs4gr]
  have hAnl : (addPendingEntry (addPendingEntry (addPendingEntry (addPendingEntry s4 r1) r2) r3)
      r4).nextLeg = s4.nextLeg := by rw [a4nl, a3nl, a2nl, a1nl]
  have hAleg : (addPendingEntry (addPendingEntry (addPendingEntry (addPendingEntry s4 r1) r2) r3)
      r4).legSt = s4.legSt := by rw [a4leg, a3leg, a2leg, a1leg]
  have hApe : ∀ j, j ∈ (addPendingEntry (addPendingEntry (addPendingEntry
      (addPendingEntry s4 r1) r2) r3) r4).pendingEntry ↔
      (j ∈ s.pendingEntry ∨ r1 = some j ∨ r2 = some j ∨ r3 = some j ∨ r4 = some j) := by
    intro j
    rw [a4pe, a3pe, a2pe, a1pe, hs4pe]
    tauto
  refine ⟨⟨⟨?_, ?_, ?_, ?_⟩, ?_, ?_, ?_⟩, hAgr, by rw [hAnl]; exact hn, fun j hj => ?_⟩
  · intro j hj
    rw [hApe j] at hj
    rw [hAnl]
    rcases hj with hj | hj
    · exact lt_of_lt_of_le (hbe j hj) hn
    · exact (hres j hj).2.1
  · intro j hj
    rw [hAsl] at hj
    rw [hAnl]
    exact lt_of_lt_of_le (hbs j hj) hn
  · intro j hj
    rw [hAce] at hj
    rw [hAnl]
    exact lt_of_lt_of_le (hbc j hj) hn
  · intro j hj
    rw [hApx] at hj
    rw [hAnl]
    exact lt_of_lt_of_le (hbx j hj) hn
  · intro j hj
    rw [hApe j] at hj
    rw [hAleg]
    rcases hj with hj | hj
    · rw [hleg4 j (hbe j hj)]
      exact hf j hj
    · rw [(hres j hj).2.2]
      exact ⟨rfl, rfl⟩
  · intro j hj
    rw [hApe j] at hj
    rw [hAsl, hAce, hApx]
    rcases hj with hj | hj
    · exact hd j hj
    · obtain ⟨hge, _, _⟩ := hres j hj
      refine ⟨fun hc => ?_, fun hc => ?_, fun hc => ?_⟩
      · exact absurd (hbs j hc) (not_lt.2 hge)
      · exact absurd (hbc j hc) (not_lt.2 hge)
      · exact absurd (hbx j hc) (not_lt.2 hge)
  · intro g hgg
    rw [hAgr] at hgg
    rw [hAnl]
    exact groupLegsBounded_mono g s.nextLeg s4.nextLeg hn (hg g hgg)
  · rw [hAnl]
    exact (hres j hj).2.1

theorem enterPositions_facts (s : Strat) (atm : Option Int) (bars : EntryBars) (h : Inv s) :
    Inv (enterPositions s atm bars).1 ∧
    (enterPositions s atm bars).1.positionsGroups = s.positionsGroups ∧
    s.nextLeg ≤ (enterPositions s atm bars).1.nextLeg ∧
    (∀ g, (enterPositions s atm bars).2 = some g →
      GroupLegsBounded g (enterPositions s atm bars).1.nextLeg) := by
  cases atm with
  | none =>
    refine ⟨h, rfl, le_refl _, fun g hgg => ?_⟩
    simp [enterPositions] at hgg
  | some k =>
    have hcore := entryChain_facts
      { s with entryCalls := s.entryCalls + 1, state := State.PLACING_ORDERS }
      _ _ _ _ bars.ceHedge bars.peHedge bars.ceShort bars.peShort _ _ _ _ rfl rfl rfl rfl h
    obtain ⟨hinv, hgr, hnl, hbnd⟩ := hcore
    refine ⟨hinv, hgr, hnl, fun g hgg => ?_⟩
    simp only [enterPositions, Option.some.injEq] at hgg
    subst hgg
    exact ⟨fun r hr => hbnd r (Or.inl hr), fun r hr => hbnd r (Or.inr (Or.inl hr)),
      fun r hr => hbnd r (Or.inr (Or.inr (Or.inl hr))),
      fun r hr => hbnd r (Or.inr (Or.inr (Or.inr hr)))⟩

theorem addPosition_inv (s : Strat) (g : Option StraddlePosition) (h : Inv s)
    (hbnd : ∀ g2, g = some g2 → GroupLegsBounded g2 s.nextLeg) : Inv (addPosition s g) := by
  obtain ⟨hb, hf, hd, hg⟩ := h
  cases g with
  | none => exact ⟨hb, hf, hd, hg⟩
  | some g2 =>
    refine ⟨hb, hf, hd, fun g3 hg3 => ?_⟩
    simp only [addPosition, List.mem_append, List.mem_singleton] at hg3
    rcases hg3 with hg3 | rfl
    · exact hg g3 hg3
    · exact hbnd g3 rfl

theorem onResampledBars_inv (cfg : Cfg) (s : Strat) (atm : Option Int) (bars : EntryBars)
    (h : Inv s) : Inv (onResampledBars cfg s atm bars) := by
  unfold onResampledBars
  split_ifs with hlen
  · exact h
  · obtain ⟨hinv, hgr, hnl, hbnd⟩ := enterPositions_facts s atm bars h
    exact addPosition_inv _ _ hinv (fun g2 hg2 => hbnd g2 hg2)

theorem onEnterCanceled_inv (s : Strat) (l : Nat) (h : Inv s) : Inv (onEnterCanceled s l) := by
  obtain ⟨⟨hbe, hbs, hbc, hbx⟩, hfr, hd, hg⟩ := h
  exact ⟨⟨fun j hj => hbe j (Finset.mem_of_mem_erase hj), hbs, hbc, hbx⟩,
    fun j hj => hfr j (Finset.mem_of_mem_erase hj),
    fun j hj => hd j (Finset.mem_of_mem_erase hj), hg⟩

theorem stepEnterOk_fields (s : Strat) (l : Nat) :
    (stepEnterOk s l).1.pendingEntry = s.pendingEntry.erase l ∧
    (stepEnterOk s l).1.pendingSLToCost = s.pendingSLToCost ∧
    (stepEnterOk s l).1.pendingCancelExit = s.pendingCancelExit ∧
    (stepEnterOk s l).1.pendingExit = s.pendingExit ∧
    (stepEnterOk s l).1.positionsGroups = s.positionsGroups ∧
    (stepEnterOk s l).1.nextLeg = s.nextLeg ∧
    (∀ j, j ≠ l → (stepEnterOk s l).1.legSt j = s.legSt j) := by
  simp only [stepEnterOk, onEnterOk]
  split <;>
    exact ⟨by simp [setExitActive, setEntryFilled, setLeg_pendingEntry],
      by simp [setExitActive, setEntryFilled, setLeg_pendingSLToCost],
      by simp [setExitActive, setEntryFilled, setLeg_pendingCancelExit],
      by simp [setExitActive, setEntryFilled, setLeg_pendingExit],
      by simp [setExitActive, setEntryFilled, setLeg_positionsGroups],
      by simp [setExitActive, setEntryFilled, setLeg_nextLeg],
      fun j hj => by simp [setExitActive, setEntryFilled, setLeg_legSt, hj]⟩

theorem stepEnterOk_inv (s : Strat) (l : Nat) (h : Inv s) : Inv (stepEnterOk s l).1 := by
  obtain ⟨f1, f2, f3, f4, f5, f6, f7⟩ := stepEnterOk_fields s l
  obtain ⟨⟨hbe, hbs, hbc, hbx⟩, hfr, hd, hg⟩ := h
  refine ⟨⟨?_, ?_, ?_, ?_⟩, ?_, ?_, ?_⟩
  · intro j hj
    rw [f1] at hj
    rw [f6]
    exact hbe j (Finset.mem_of_mem_erase hj)
  · intro j hj
    rw [f2] at hj
    rw [f6]
    exact hbs j hj
  · intro j hj
    rw [f3] at hj
    rw [f6]
    exact hbc j hj
  · intro j hj
    rw [f4] at hj
    rw [f6]
    exact hbx j hj
  · intro j hj
    rw [f1] at hj
    rw [f7 j (Finset.ne_of_mem_erase hj)]
    exact hfr j (Finset.mem_of_mem_erase hj)
  · intro j hj
    rw [f1] at hj
    rw [f2, f3, f4]
    exact hd j (Finset.mem_of_mem_erase hj)
  · intro g hgg
    rw [f5] at hgg
    rw [f6]
    exact hg g hgg

theorem stepExitCanceled_fields (s : Strat) (l : Nat) (bar : Bool) :
    (stepExitCanceled s l bar).pendingEntry = s.pendingEntry ∧
    ((stepExitCanceled s l bar).pendingSLToCost = s.pendingSLToCost ∨
      (stepExitCanceled s l bar).pendingSLToCost = s.pendingSLToCost.erase l) ∧
    (stepExitCanceled s l bar).pendingCancelExit = s.pendingCancelExit.erase l ∧
    (stepExitCanceled s l bar).pendingExit = s.pendingExit ∧
    (stepExitCanceled s l bar).positionsGroups = s.positionsGroups ∧
    (stepExitCanceled s l bar).nextLeg = s.nextLeg ∧
    (∀ j, j ≠ l → (stepExitCanceled s l bar).legSt j = s.legSt j) ∧
    ((l ∉ s.pendingSLToCost → l ∉ s.pendingExit →
      ((stepExitCanceled s l bar).legSt l).entryFilled = (s.legSt l).entryFilled ∧
        ((stepExitCanceled s l bar).legSt l).exitActive = false)) := by
  by_cases hsl : l ∈ s.pendingSLToCost <;> by_cases hpe : l ∈ s.pendingExit <;>
    by_cases hsq : s.state = State.SQUARING_OFF <;> cases bar <;>
      · simp only [stepExitCanceled, onExitCanceled, exitWithMarketProtection, setExitInactive,
          setExitActive, setLeg_state, setLeg_pendingEntry, setLeg_pendingEntryNone,
          setLeg_pendingSLToCost, setLeg_pendingCancelExit, setLeg_pendingExit,
          setLeg_positionsGroups, setLeg_positionsNone, setLeg_nextLeg, setLeg_legSt]
        simp [hsl, hpe, hsq]
        repeat' apply And.intro
        all_goals
          first
            | rfl
            | tauto
            | (intro j hj; simp [setLeg_legSt, hj])
            | (intro h1 h2; simp [setLeg_legSt])
            | simp [setLeg_legSt]

theorem stepExitCanceled_inv (s : Strat) (l : Nat) (bar : Bool) (h : Inv s) :
    Inv (stepExitCanceled s l bar) := by
  obtain ⟨f1, f2, f3, f4, f5, f6, f7, f8⟩ := stepExitCanceled_fields s l bar
  obtain ⟨⟨hbe, hbs, hbc, hbx⟩, hfr, hd, hg⟩ := h
  have hsub : ∀ j, j ∈ (stepExitCanceled s l bar).pendingSLToCost → j ∈ s.pendingSLToCost := by
    intro j hj
    rcases f2 with f2 | f2 <;> rw [f2] at hj
    · exact hj
    · exact Finset.mem_of_mem_erase hj
  refine ⟨⟨?_, ?_, ?_, ?_⟩, ?_, ?_, ?_⟩
  · intro j hj
    rw [f1] at hj
    rw [f6]
    exact hbe j hj
  · intro j hj
    rw [f6]
    exact hbs j (hsub j hj)
  · intro j hj
    rw [f3] at hj
    rw [f6]
    exact hbc j (Finset.mem_of_mem_erase hj)
  · intro j hj
    rw [f4] at hj
    rw [f6]
    exact hbx j hj
  · intro j hj
    rw [f1] at hj
    by_cases hjl : j = l
    · subst hjl
      obtain ⟨hef, hea⟩ := f8 (fun hc => (hd j hj).1 hc) (fun hc => (hd j hj).2.2 hc)
      rw [hef, hea]
      exact ⟨(hfr j hj).1, rfl⟩
    · rw [f7 j hjl]
      exact hfr j hj
  · intro j hj
    rw [f1] at hj
    obtain ⟨d1, d2, d3⟩ := hd j hj
    refine ⟨fun hc => d1 (hsub j hc), fun hc => ?_, fun hc => ?_⟩
    · rw [f3] at hc
      exact d2 (Finset.mem_of_mem_erase hc)
    · rw [f4] at hc
      exact d3 hc
  · intro g hgg
    rw [f5] at hgg
    rw [f6]
    exact hg g hgg

theorem stepExitOk_fields (s : Strat) (l : Nat) :
    (stepExitOk s l).1.pendingEntry = s.pendingEntry ∧
    (stepExitOk s l).1.pendingExit = s.pendingExit.erase l ∧
    (stepExitOk s l).1.pendingCancelExit = s.pendingCancelExit ∧
    (stepExitOk s l).1.positionsGroups = s.positionsGroups ∧
    (stepExitOk s l).1.nextLeg = s.nextLeg ∧
    (∀ j, j ≠ l → (stepExitOk s l).1.legSt j = s.legSt j) ∧
    (((stepExitOk s l).1.legSt l).entryFilled = (s.legSt l).entryFilled ∧
      ((stepExitOk s l).1.legSt l).exitActive = false) ∧
    ((stepExitOk s l).1.pendingSLToCost = s.pendingSLToCost ∨
      ∃ m g, (stepExitOk s l).1.pendingSLToCost = insert m s.pendingSLToCost ∧
        s.positionsGroups.find? (fun g2 =>
          decide (g2.ceShort = some l) || decide (g2.peShort = some l)) = some g ∧
        (g.ceShort = some m ∨ g.peShort = some m) ∧ m ≠ l ∧
        (s.legSt m).exitActive = true) := by
  by_cases hsq : s.state = State.SQUARING_OFF
  · simp only [stepExitOk, onExitOk, setExitFilled, setLeg_state, hsq, if_pos]
    repeat' apply And.intro
    all_goals
      first
        | rfl
        | exact Or.inl rfl
        | (intro j hj; simp [setLeg_legSt, hj])
        | simp [setLeg_legSt]
  · by_cases hn : s.positionsNone = true
    · simp only [stepExitOk, onExitOk, getStraddlePosition_eq, setExitFilled, setLeg_state,
        setLeg_positionsNone, hsq, hn, if_neg, if_pos, if_true, if_false]
      simp [hsq]
      repeat' apply And.intro
      all_goals
        first
          | rfl
          | exact Or.inl rfl
          | (intro j hj; simp [setLeg_legSt, hj])
          | simp [setLeg_legSt]
    · rcases hf : s.positionsGroups.find? (fun g2 =>
          decide (g2.ceShort = some l) || decide (g2.peShort = some l)) with _ | g
      · simp only [stepExitOk, onExitOk, getStraddlePosition_eq, setExitFilled, setLeg_state,
          setLeg_positionsNone, setLeg_positionsGroups]
        simp [hsq, hn, hf]
        repeat' apply And.intro
        all_goals
          first
            | rfl
            | exact Or.inl rfl
            | (intro j hj; simp [setLeg_legSt, hj])
            | simp [setLeg_legSt]
      · rcases ho : (if some l ≠ g.ceShort then g.ceShort else g.peShort) with _ | m
        · simp only [stepExitOk, onExitOk, getStraddlePosition_eq, setExitFilled, setLeg_state,
            setLeg_positionsNone, setLeg_positionsGroups]
          simp [hsq, hn, hf, ho]
          repeat' apply And.intro
          all_goals
            first
              | rfl
              | exact Or.inl rfl
              | (intro j hj; simp [setLeg_legSt, hj])
              | simp [setLeg_legSt]
        · have hmg : g.ceShort = some m ∨ g.peShort = some m := by
            by_cases hce : some l ≠ g.ceShort
            · rw [if_pos hce] at ho
              exact Or.inl ho
            · rw [if_neg hce] at ho
              exact Or.inr ho
          by_cases hml : m = l
          · subst hml
            simp only [stepExitOk, onExitOk, getStraddlePosition_eq, setExitFilled, setLeg_state,
              setLeg_positionsNone, setLeg_positionsGroups, setLeg_legSt]
            simp [hsq, hn, hf, ho]
            repeat' apply And.intro
            all_goals
              first
                | rfl
                | exact Or.inl rfl
                | (intro j hj; simp [setLeg_legSt, hj])
                | simp [setLeg_legSt]
          · by_cases hfil : (s.legSt m).exitFilled = true
            · simp only [stepExitOk, onExitOk, getStraddlePosition_eq, setExitFilled,
                setLeg_state, setLeg_positionsNone, setLeg_positionsGroups, setLeg_legSt]
              simp [hsq, hn, hf, ho, hml, hfil]
              repeat' apply And.intro
              all_goals
                first
                  | rfl
                  | exact Or.inl rfl
                  | (intro j hj; simp [setLeg_legSt, hj])
                  | simp [setLeg_legSt]
            · by_cases hact : (s.legSt m).exitActive = true
              · refine ⟨?_, ?_, ?_, ?_, ?_, ?_, ?_, Or.inr ⟨m, g, ?_, hf, hmg, hml, hact⟩⟩ <;>
                  · simp only [stepExitOk, onExitOk, getStraddlePosition_eq, setExitFilled,
                      requestCancelExit, setLeg_state, setLeg_positionsNone,
                      setLeg_positionsGroups, setLeg_legSt]
                    simp [hsq, hn, hf, ho, hml, hfil, hact, setLeg_pendingEntry,
                      setLeg_pendingSLToCost, setLeg_pendingCancelExit, setLeg_pendingExit,
                      setLeg_nextLeg, setLeg_positionsGroups]
                    try (intro j hj; simp [setLeg_legSt, hj])
                    try simp [setLeg_legSt]
              · simp only [stepExitOk, onExitOk, getStraddlePosition_eq, setExitFilled,
                  setLeg_state, setLeg_positionsNone, setLeg_positionsGroups, setLeg_legSt]
                simp [hsq, hn, hf, ho, hml, hfil, hact]
                repeat' apply And.intro
                all_goals
                  first
                    | rfl
                    | exact Or.inl rfl
                    | (intro j hj; simp [setLeg_legSt, hj])
                    | simp [setLeg_legSt]

theorem stepExitOk_inv (s : Strat) (l : Nat) (h : Inv s) : Inv (stepExitOk s l).1 := by
  obtain ⟨f1, f2, f3, f4, f5, f6, f7, f8⟩ := stepExitOk_fields s l
  obtain ⟨⟨hbe, hbs, hbc, hbx⟩, hfr, hd, hg⟩ := h
  have hins : ∀ j, j ∈ (stepExitOk s l).1.pendingSLToCost →
      j ∈ s.pendingSLToCost ∨ (j < s.nextLeg ∧ (s.legSt j).exitActive = true) := by
    intro j hj
    rcases f8 with f8 | ⟨m, g, hm1, hm2, hm3, hm4, hm5⟩
    · rw [f8] at hj
      exact Or.inl hj
    · rw [hm1] at hj
      rcases Finset.mem_insert.1 hj with rfl | hj2
      · refine Or.inr ⟨?_, hm5⟩
        have hmem := List.mem_of_find?_eq_some hm2
        have hbg := hg g hmem
        rcases hm3 with hm3 | hm3
        · exact hbg.2.2.1 j hm3
        · exact hbg.2.2.2 j hm3
      · exact Or.inl hj2
  refine ⟨⟨?_, ?_, ?_, ?_⟩, ?_, ?_, ?_⟩
  · intro j hj
    rw [f1] at hj
    rw [f5]
    exact hbe j hj
  · intro j hj
    rw [f5]
    rcases hins j hj with hj2 | ⟨hj2, _⟩
    · exact hbs j hj2
    · exact hj2
  · intro j hj
    rw [f3] at hj
    rw [f5]
    exact hbc j hj
  · intro j hj
    rw [f2] at hj
    rw [f5]
    exact hbx j (Finset.mem_of_mem_erase hj)
  · intro j hj
    rw [f1] at hj
    by_cases hjl : j = l
    · subst hjl
      rw [f7.1, f7.2]
      exact ⟨(hfr j hj).1, rfl⟩
    · rw [f6 j hjl]
      exact hfr j hj
  · intro j hj
    rw [f1] at hj
    obtain ⟨d1, d2, d3⟩ := hd j hj
    refine ⟨fun hc => ?_, fun hc => ?_, fun hc => ?_⟩
    · rcases hins j hc with hc2 | ⟨_, hc2⟩
      · exact d1 hc2
      · exact absurd hc2 (by rw [(hfr j hj).2]; simp)
    · rw [f3] at hc
      exact d2 hc
    · rw [f2] at hc
      exact d3 (Finset.mem_of_mem_erase hc)
  · intro g hgg
    rw [f4] at hgg
    rw [f5]
    exact hg g hgg

theorem closeLeg_fields (bars : Nat → Bool) (s : Strat) (l : Nat) :
    (closeLeg bars s l).pendingEntry = s.pendingEntry ∧
    (closeLeg bars s l).pendingSLToCost = s.pendingSLToCost ∧
    ((closeLeg bars s l).pendingCancelExit = s.pendingCancelExit ∨
      (closeLeg bars s l).pendingCancelExit = insert l s.pendingCancelExit) ∧
    (closeLeg bars s l).pendingExit = insert l s.pendingExit ∧
    (closeLeg bars s l).positionsGroups = s.positionsGroups ∧
    (closeLeg bars s l).nextLeg = s.nextLeg ∧
    (∀ j, j ≠ l → (closeLeg bars s l).legSt j = s.legSt j) ∧
    (∀ j, ((closeLeg bars s l).legSt j).entryFilled = (s.legSt j).entryFilled) := by
  unfold closeLeg exitWithMarketProtection requestCancelExit
  split_ifs <;> (repeat' apply And.intro) <;>
    first
      | rfl
      | exact Or.inl rfl
      | exact Or.inr rfl
      | (intro j hj; simp [setExitActive, setLeg_legSt, hj])
      | (intro j; by_cases hj : j = l <;> simp [setExitActive, setLeg_legSt, hj])

theorem closeLeg_inv (bars : Nat → Bool) (s : Strat) (l : Nat) (h : Inv s)
    (hl : l < s.nextLeg) (hfill : (s.legSt l).entryFilled = true) :
    Inv (closeLeg bars s l) ∧ (closeLeg bars s l).nextLeg = s.nextLeg ∧
      (∀ j, ((closeLeg bars s l).legSt j).entryFilled = (s.legSt j).entryFilled) := by
  obtain ⟨f1, f2, f3, f4, f5, f6, f7, f8⟩ := closeLeg_fields bars s l
  obtain ⟨⟨hbe, hbs, hbc, hbx⟩, hfr, hd, hg⟩ := h
  have hnotpe : ∀ j, j ∈ s.pendingEntry → j ≠ l := by
    intro j hj hc
    subst hc
    rw [(hfr j hj).1] at hfill
    exact Bool.false_ne_true hfill
  have hce2 : ∀ j, j ∈ (closeLeg bars s l).pendingCancelExit →
      j = l ∨ j ∈ s.pendingCancelExit := by
    intro j hj
    rcases f3 with f3 | f3 <;> rw [f3] at hj
    · exact Or.inr hj
    · exact Finset.mem_insert.1 hj
  refine ⟨⟨⟨?_, ?_, ?_, ?_⟩, ?_, ?_, ?_⟩, f6, f8⟩
  · intro j hj
    rw [f1] at hj
    rw [f6]
    exact hbe j hj
  · intro j hj
    rw [f2] at hj
    rw [f6]
    exact hbs j hj
  · intro j hj
    rw [f6]
    rcases hce2 j hj with rfl | hj2
    · exact hl
    · exact hbc j hj2
  · intro j hj
    rw [f4] at hj
    rw [f6]
    rcases Finset.mem_insert.1 hj with rfl | hj2
    · exact hl
    · exact hbx j hj2
  · intro j hj
    rw [f1] at hj
    rw [f7 j (hnotpe j hj)]
    exact hfr j hj
  · intro j hj
    rw [f1] at hj
    obtain ⟨d1, d2, d3⟩ := hd j hj
    refine ⟨fun hc => ?_, fun hc => ?_, fun hc => ?_⟩
    · rw [f2] at hc
      exact d1 hc
    · rcases hce2 j hc with rfl | hc2
      · exact hnotpe j hj rfl
      · exact d2 hc2
    · rw [f4] at hc
      rcases Finset.mem_insert.1 hc with rfl | hc2
      · exact hnotpe j hj rfl
      · exact d3 hc2
  · intro g hgg
    rw [f5] at hgg
    rw [f6]
    exact hg g hgg

theorem closeFold_inv (bars : Nat → Bool) (todo : List Nat) :
    ∀ s, Inv s → (∀ l ∈ todo, l < s.nextLeg ∧ (s.legSt l).entryFilled = true) →
      Inv (todo.foldl (closeLeg bars) s) := by
  induction todo with
  | nil => exact fun s h _ => h
  | cons a t ih =>
    intro s h hmem
    obtain ⟨ha1, ha2⟩ := hmem a (List.mem_cons_self a t)
    obtain ⟨hInvA, hnl, hef⟩ := closeLeg_inv bars s a h ha1 ha2
    rw [List.foldl_cons]
    refine ih (closeLeg bars s a) hInvA (fun l hl => ?_)
    obtain ⟨hb1, hb2⟩ := hmem l (List.mem_cons_of_mem a hl)
    refine ⟨by rw [hnl]; exact hb1, by rw [hef l]; exact hb2⟩

theorem mem_activeLegsList (s : Strat) (l : Nat) :
    l ∈ activeLegsList s ↔
      l < s.nextLeg ∧ (s.legSt l).entryFilled = true ∧ (s.legSt l).exitFilled = false := by
  simp [activeLegsList, List.mem_filter, List.mem_range, and_assoc]

theorem closeAllPositions_inv (s : Strat) (bars : Nat → Bool) (h : Inv s) :
    Inv (closeAllPositions s bars) := by
  unfold closeAllPositions
  refine closeFold_inv bars _ _ h (fun l hl => ?_)
  obtain ⟨h1, h2, _⟩ := (mem_activeLegsList _ l).1 hl
  exact ⟨h1, h2⟩

theorem resetSession_inv (s : Strat) : Inv (resetSession s) := by
  refine ⟨⟨?_, ?_, ?_, ?_⟩, ?_, ?_, ?_⟩ <;> intro j hj <;> simp [resetSession] at hj

theorem handlePlacingOrders_inv (cfg : Cfg) (s : Strat) (now : Nat) (pc : Bool) (h : Inv s) :
    Inv (handlePlacingOrders cfg s now pc) := by
  rw [handlePlacingOrders_eq]
  exact h

theorem strategyLogicTail_inv (cfg : Cfg) (t : Strat) (now : Nat) (bars : Nat → Bool)
    (h : Inv t) :
    Inv (if cfg.marketEndTime ≤ now then
        (if (activeLegs t).card + (closedLegs t).card ≠ 0 then resetSession t else t)
      else if cfg.exitTime ≤ now then
        (if t.state = State.ENTERED then closeAllPositions t bars else t)
      else t) := by
  split_ifs <;>
    first
      | exact h
      | exact resetSession_inv t
      | exact closeAllPositions_inv t bars h

theorem strategyLogic_inv (cfg : Cfg) (s : Strat) (now : Nat) (pc : Bool) (bars : Nat → Bool)
    (h : Inv s) : Inv (strategyLogic cfg s now pc bars) := by
  unfold strategyLogic
  have h1 : Inv (if s.state = State.PLACING_ORDERS ∨ s.state = State.SQUARING_OFF
      then handlePlacingOrders cfg s now pc else s) := by
    split_ifs
    · exact handlePlacingOrders_inv cfg s now pc h
    · exact h
  exact strategyLogicTail_inv cfg _ now bars h1

theorem step_inv (cfg : Cfg) (s : Strat) (e : Event) (h : Inv s) : Inv (step cfg s e) := by
  cases e with
  | tick now pc bars => exact strategyLogic_inv cfg s now pc bars h
  | resampled atm bars => exact onResampledBars_inv cfg s atm bars h
  | enterOk l => exact stepEnterOk_inv s l h
  | enterCanceled l => exact onEnterCanceled_inv s l h
  | exitOk l => exact stepExitOk_inv s l h
  | exitCanceled l bar => exact stepExitCanceled_inv s l bar h

theorem init_inv : Inv init := by
  refine ⟨⟨?_, ?_, ?_, ?_⟩, ?_, ?_, ?_⟩ <;> intro j hj <;> simp [init] at hj

theorem run_inv (cfg : Cfg) (es : List Event) : Inv (run cfg es) := by
  unfold run
  have hgen : ∀ (l : List Event) (s : Strat), Inv s → Inv (l.foldl (step cfg) s) := by
    intro l
    induction l with
    | nil => exact fun s h => h
    | cons a t ih =>
      intro s h
      rw [List.foldl_cons]
      exact ih (step cfg s a) (step_inv cfg s a h)
  exact hgen es init init_inv

theorem handlePlacingOrders_state_eq (cfg : Cfg) (s : Strat) (now : Nat) (pc : Bool) :
    (handlePlacingOrders cfg s now pc).state =
      if pendingSetsEmpty s && pc then
        (if s.state = State.SQUARING_OFF ∧ cfg.exitTime ≤ now then State.EXITED
         else if (activeLegs s).card = 0 then State.LIVE
         else State.ENTERED)
      else s.state := by
  unfold handlePlacingOrders pendingSetsEmpty
  split_ifs <;> simp_all

theorem pendingSetsEmpty_false (s : Strat) (hne : pendingSetsEmpty s = false) :
    s.pendingEntry.card ≠ 0 ∨ s.pendingEntryNone = true ∨ s.pendingSLToCost.card ≠ 0 ∨
      s.pendingCancelExit.card ≠ 0 ∨ s.pendingExit.card ≠ 0 := by
  by_contra hc
  push_neg at hc
  obtain ⟨c1, c2, c3, c4, c5⟩ := hc
  simp only [Bool.not_eq_true] at c2
  simp [pendingSetsEmpty, c1, c2, c3, c4, c5] at hne

theorem strategyLogic_state_stuck (cfg : Cfg) (s : Strat) (now : Nat) (pc : Bool)
    (bars : Nat → Bool) (hsess : now < cfg.marketEndTime) (hne : pendingSetsEmpty s = false)
    (hst : s.state ≠ State.ENTERED) :
    (strategyLogic cfg s now pc bars).state = s.state := by
  unfold strategyLogic
  have hh : handlePlacingOrders cfg s now pc = s := by
    unfold handlePlacingOrders
    rw [if_pos (pendingSetsEmpty_false s hne)]
  have h1 : (if s.state = State.PLACING_ORDERS ∨ s.state = State.SQUARING_OFF then
      handlePlacingOrders cfg s now pc else s) = s := by
    split_ifs
    · exact hh
    · rfl
  simp only [h1]
  rw [if_neg (not_le.2 hsess)]
  by_cases h2 : cfg.exitTime ≤ now
  · rw [if_pos h2, if_neg hst]
  · rw [if_neg h2]

theorem ewmp_state (s : Strat) (isBuy bar : Bool) :
    (enterWithMarketProtection s isBuy bar).1.state = s.state := by
  cases bar <;> rfl

theorem addPendingEntry_state (s : Strat) (p : Option Nat) :
    (addPendingEntry s p).state = s.state := by
  cases p <;> rfl

theorem addPosition_state (s : Strat) (g : Option StraddlePosition) :
    (addPosition s g).state = s.state := by
  cases g <;> rfl

theorem onResampledBars_state (cfg : Cfg) (s : Strat) (atm : Option Int) (bars : EntryBars) :
    (onResampledBars cfg s atm bars).state = s.state ∨
      (onResampledBars cfg s atm bars).state = State.PLACING_ORDERS := by
  unfold onResampledBars
  split_ifs
  · exact Or.inl rfl
  · rw [addPosition_state]
    cases atm with
    | none => exact Or.inl rfl
    | some k =>
      refine Or.inr ?_
      simp only [enterPositions]
      rw [addPendingEntry_state, addPendingEntry_state, addPendingEntry_state,
        addPendingEntry_state, ewmp_state, ewmp_state, ewmp_state, ewmp_state]

theorem stepEnterOk_state (s : Strat) (l : Nat) : (stepEnterOk s l).1.state = s.state := by
  simp only [stepEnterOk, onEnterOk]
  split <;> simp [setExitActive, setEntryFilled, setLeg_state]

theorem stepExitOk_state (s : Strat) (l : Nat) :
    (stepExitOk s l).1.state = s.state ∨ (stepExitOk s l).1.state = State.PLACING_ORDERS := by
  by_cases hsq : s.state = State.SQUARING_OFF
  · refine Or.inl ?_
    simp [stepExitOk, onExitOk, setExitFilled, setLeg_state, hsq]
  · by_cases hn : s.positionsNone = true
    · refine Or.inl ?_
      simp [stepExitOk, onExitOk, setExitFilled, getStraddlePosition_eq, setLeg_state,
        setLeg_positionsNone, hsq, hn]
    · rcases hf : s.positionsGroups.find? (fun g2 =>
          decide (g2.ceShort = some l) || decide (g2.peShort = some l)) with _ | g
      · refine Or.inl ?_
        simp [stepExitOk, onExitOk, setExitFilled, getStraddlePosition_eq, setLeg_state,
          setLeg_positionsNone, setLeg_positionsGroups, hsq, hn, hf]
      · rcases ho : (if some l ≠ g.ceShort then g.ceShort else g.peShort) with _ | m
        · refine Or.inl ?_
          simp [stepExitOk, onExitOk, setExitFilled, getStraddlePosition_eq, setLeg_state,
            setLeg_positionsNone, setLeg_positionsGroups, hsq, hn, hf, ho]
        · simp only [stepExitOk, onExitOk, setExitFilled, getStraddlePosition_eq,
            requestCancelExit, setLeg_state, setLeg_positionsNone, setLeg_positionsGroups,
            setLeg_legSt]
          simp [hsq, hn, hf, ho]
          split_ifs <;> simp

theorem stepExitCanceled_state (s : Strat) (l : Nat) (bar : Bool) :
    (stepExitCanceled s l bar).state = s.state ∨
      (stepExitCanceled s l bar).state = State.PLACING_ORDERS := by
  by_cases hsl : l ∈ s.pendingSLToCost <;> by_cases hpe : l ∈ s.pendingExit <;>
    by_cases hsq : s.state = State.SQUARING_OFF <;> cases bar <;>
      · simp [stepExitCanceled, onExitCanceled, exitWithMarketProtection, setExitInactive,
          setExitActive, setLeg_state, setLeg_pendingSLToCost, setLeg_pendingCancelExit,
          setLeg_pendingExit, setLeg_legSt, hsl, hpe, hsq, Finset.mem_erase]
        try tauto

theorem step_state_stuck (cfg : Cfg) (s : Strat) (e : Event) (hsess : inSession cfg e)
    (hne : pendingSetsEmpty s = false)
    (hst : s.state = State.PLACING_ORDERS ∨ s.state = State.SQUARING_OFF) :
    (step cfg s e).state = s.state ∨ (step cfg s e).state = State.PLACING_ORDERS := by
  cases e with
  | tick now pc bars =>
    refine Or.inl (strategyLogic_state_stuck cfg s now pc bars hsess hne ?_)
    rcases hst with hst | hst <;> simp [hst]
  | resampled atm bars => exact onResampledBars_state cfg s atm bars
  | enterOk l => exact Or.inl (stepEnterOk_state s l)
  | enterCanceled l => exact Or.inl rfl
  | exitOk l => exact stepExitOk_state s l
  | exitCanceled l bar => exact stepExitCanceled_state s l bar

/-- C3 (amended): the phase recomputation (`handlePlacingOrders`)
changes the phase only when all four pending sets are empty and the broker
reports pending orders completed, and then the new phase is EXITED if the
phase was SQUARING_OFF and the time is at or past the exit deadline, else
LIVE if there are no active legs, else ENTERED; while PLACING_ORDERS with
nonempty pending sets no in-session event changes the phase; but while
SQUARING_OFF with nonempty pending sets an entry attempt can still change
the phase to PLACING_ORDERS (see the counterexample). -/
theorem c3_amended_theorem (cfg : Cfg) :
    (∀ (s : Strat) (now : Nat) (pc : Bool),
      (handlePlacingOrders cfg s now pc).state =
        if pendingSetsEmpty s && pc then
          (if s.state = State.SQUARING_OFF ∧ cfg.exitTime ≤ now then State.EXITED
           else if (activeLegs s).card = 0 then State.LIVE
           else State.ENTERED)
        else s.state) ∧
    (∀ (s : Strat) (e : Event), s.state = State.PLACING_ORDERS →
      pendingSetsEmpty s = false → inSession cfg e →
      (step cfg s e).state = State.PLACING_ORDERS) ∧
    (∀ (s : Strat) (e : Event), s.state = State.SQUARING_OFF →
      pendingSetsEmpty s = false → inSession cfg e →
      (step cfg s e).state = State.SQUARING_OFF ∨
        (step cfg s e).state = State.PLACING_ORDERS) := by
  refine ⟨handlePlacingOrders_state_eq cfg, fun s e hst hne hsess => ?_,
    fun s e hst hne hsess => ?_⟩
  · rcases step_state_stuck cfg s e hsess hne (Or.inl hst) with h | h
    · rw [h, hst]
    · exact h
  · rcases step_state_stuck cfg s e hsess hne (Or.inr hst) with h | h
    · exact Or.inl (by rw [h, hst])
    · exact Or.inr h

/-- C3 counterexample: in the SQUARING_OFF state reached by `traceA`
with all four pending sets nonempty, a resampled-bar entry attempt changes
the phase to PLACING_ORDERS, so the phase does not change only when the
pending sets are empty. -/
theorem c3_counterexample :
    (run defaultCfg (traceA.take 7)).state = State.SQUARING_OFF ∧
      pendingSetsEmpty (run defaultCfg (traceA.take 7)) = false ∧
      (step defaultCfg (run defaultCfg (traceA.take 7))
        (Event.resampled (some 100) allBars)).state = State.PLACING_ORDERS ∧
      pendingSetsEmpty (step defaultCfg (run defaultCfg (traceA.take 7))
        (Event.resampled (some 100) allBars)) = false := by
  decide

/-- Witness for C3 (amended): the recomputation equation at the initial
state, and phase stability of a PLACING_ORDERS state with nonempty
pendingEntry under an entry-confirmed event. -/
theorem c3_amended_witness :
    (handlePlacingOrders defaultCfg init 900 true).state =
        (if pendingSetsEmpty init && true then
          (if init.state = State.SQUARING_OFF ∧ defaultCfg.exitTime ≤ 900 then State.EXITED
           else if (activeLegs init).card = 0 then State.LIVE
           else State.ENTERED)
        else init.state) ∧
      (step defaultCfg (run defaultCfg traceB) (Event.enterOk 0)).state =
        State.PLACING_ORDERS :=
  ⟨(c3_amended_theorem defaultCfg).1 init 900 true,
    (c3_amended_theorem defaultCfg).2.1 (run defaultCfg traceB) (Event.enterOk 0)
      (by decide) (by decide) trivial⟩

/-- C2 counterexample: after the concrete in-session schedule `traceA`
(square-off at the exit deadline, a new entry attempt during the unwind,
and short leg 2's exit fill racing its cancel), leg 3 is simultaneously a
member of pendingSLToCost and pendingCancelExit, violating the claimed
mutual exclusion of the three sets. -/
theorem c2_counterexample :
    3 ∈ (run defaultCfg traceA).pendingSLToCost ∧
      3 ∈ (run defaultCfg traceA).pendingCancelExit := by
  decide

/-- C2 (amended): at every reachable state of the event loop, a leg in
pendingEntry is in neither pendingSLToCost nor pendingCancelExit; the
mutual exclusion between pendingSLToCost and pendingCancelExit claimed by
the spec does not hold (see the counterexample). -/
theorem c2_amended_theorem (cfg : Cfg) (es : List Event) (l : Nat)
    (h : l ∈ (run cfg es).pendingEntry) :
    l ∉ (run cfg es).pendingSLToCost ∧ l ∉ (run cfg es).pendingCancelExit :=
  ⟨((run_inv cfg es).2.2.1 l h).1, ((run_inv cfg es).2.2.1 l h).2.1⟩

/-- Witness for C2 (amended) after one entry attempt: leg 0 is in
pendingEntry and in neither of the other two sets. -/
theorem c2_amended_witness :
    0 ∈ (run defaultCfg traceB).pendingEntry ∧
      0 ∉ (run defaultCfg traceB).pendingSLToCost ∧
      0 ∉ (run defaultCfg traceB).pendingCancelExit :=
  ⟨by decide, c2_amended_theorem defaultCfg traceB 0 (by decide)⟩

theorem enterPositions_positionsGroups (s : Strat) (atm : Option Int) (bars : EntryBars) :
    (enterPositions s atm bars).1.positionsGroups = s.positionsGroups := by
  rcases bars with ⟨b1, b2, b3, b4⟩
  cases atm
  · rfl
  · cases b1 <;> cases b2 <;> cases b3 <;> cases b4 <;>
      simp [enterPositions, ewmp_true, ewmp_false, addPendingEntry]

theorem addPosition_len (s : Strat) (g : Option StraddlePosition) :
    positionsLen (addPosition s g) ≤ positionsLen s + 1 := by
  cases g <;> simp [addPosition, positionsLen] <;> split_ifs <;> omega

theorem closeFold_positionsGroups (bars : Nat → Bool) (todo : List Nat) (s : Strat) :
    (todo.foldl (closeLeg bars) s).positionsGroups = s.positionsGroups := by
  induction todo generalizing s with
  | nil => rfl
  | cons a t ih =>
    rw [List.foldl_cons, ih]
    exact (closeLeg_fields bars s a).2.2.2.2.1

theorem closeAllPositions_positionsLen (s : Strat) (bars : Nat → Bool) :
    positionsLen (closeAllPositions s bars) = positionsLen s := by
  unfold closeAllPositions positionsLen
  rw [closeFold_positionsGroups, closeFold_positionsNone]

theorem handlePlacingOrders_positionsLen (cfg : Cfg) (s : Strat) (now : Nat) (pc : Bool) :
    positionsLen (handlePlacingOrders cfg s now pc) = positionsLen s := by
  rw [handlePlacingOrders_eq]
  rfl

theorem strategyLogicTail_positionsLen_le (cfg : Cfg) (t : Strat) (now : Nat)
    (bars : Nat → Bool) (h : positionsLen t ≤ cfg.maxEntries) :
    positionsLen (if cfg.marketEndTime ≤ now then
        (if (activeLegs t).card + (closedLegs t).card ≠ 0 then resetSession t else t)
      else if cfg.exitTime ≤ now then
        (if t.state = State.ENTERED then closeAllPositions t bars else t)
      else t) ≤ cfg.maxEntries := by
  split_ifs <;>
    first
      | exact h
      | exact le_trans (Nat.le_of_eq rfl) (Nat.zero_le _)
      | (rw [closeAllPositions_positionsLen]; exact h)

theorem strategyLogic_positionsLen_le (cfg : Cfg) (s : Strat) (now : Nat) (pc : Bool)
    (bars : Nat → Bool) (h : positionsLen s ≤ cfg.maxEntries) :
    positionsLen (strategyLogic cfg s now pc bars) ≤ cfg.maxEntries := by
  unfold strategyLogic
  have h1 : positionsLen (if s.state = State.PLACING_ORDERS ∨ s.state = State.SQUARING_OFF
      then handlePlacingOrders cfg s now pc else s) ≤ cfg.maxEntries := by
    split_ifs
    · rw [handlePlacingOrders_positionsLen]
      exact h
    · exact h
  exact strategyLogicTail_positionsLen_le cfg _ now bars h1

theorem step_positionsLen_le (cfg : Cfg) (s : Strat) (e : Event)
    (h : positionsLen s ≤ cfg.maxEntries) : positionsLen (step cfg s e) ≤ cfg.maxEntries := by
  cases e with
  | tick now pc bars => exact strategyLogic_positionsLen_le cfg s now pc bars h
  | resampled atm bars =>
    simp only [step, onResampledBars]
    split_ifs with hg
    · exact h
    · have hlt : positionsLen s < cfg.maxEntries := lt_of_le_of_ne h hg
      have h1 : positionsLen (enterPositions s atm bars).1 = positionsLen s := by
        unfold positionsLen
        rw [enterPositions_positionsGroups, enterPositions_positionsNone]
      exact le_trans (le_trans (addPosition_len _ _) (by rw [h1])) hlt
  | enterOk l =>
    have h1 : positionsLen (stepEnterOk s l).1 = positionsLen s := by
      unfold positionsLen
      rw [(stepEnterOk_fields s l).2.2.2.2.1, stepEnterOk_positionsNone]
    rw [step, h1]
    exact h
  | enterCanceled l => exact h
  | exitOk l =>
    have h1 : positionsLen (stepExitOk s l).1 = positionsLen s := by
      unfold positionsLen
      rw [(stepExitOk_fields s l).2.2.2.1, stepExitOk_positionsNone]
    rw [step, h1]
    exact h
  | exitCanceled l bar =>
    have h1 : positionsLen (stepExitCanceled s l bar) = positionsLen s := by
      unfold positionsLen
      rw [(stepExitCanceled_fields s l bar).2.2.2.2.1, stepExitCanceled_positionsNone]
    rw [step, h1]
    exact h

/-- C5 (amended): `len(self.positions)` never exceeds `maxEntries` (so
at most `maxEntries` invocations of `enterPositions` create a group in a
session), and a trigger evaluation at capacity does nothing; the number of
invocations of `enterPositions` itself is not bounded (see the
counterexample), because an invocation returning `None` re-adds the single
`None` element without growing the set. -/
theorem c5_amended_theorem (cfg : Cfg) :
    (∀ es : List Event, positionsLen (run cfg es) ≤ cfg.maxEntries) ∧
      (∀ (s : Strat) (atm : Option Int) (bars : EntryBars),
        positionsLen s = cfg.maxEntries → onResampledBars cfg s atm bars = s) := by
  constructor
  · intro es
    unfold run
    have hgen : ∀ (l : List Event) (s : Strat), positionsLen s ≤ cfg.maxEntries →
        positionsLen (l.foldl (step cfg) s) ≤ cfg.maxEntries := by
      intro l
      induction l with
      | nil => exact fun s h => h
      | cons a t ih =>
        intro s h
        rw [List.foldl_cons]
        exact ih (step cfg s a) (step_positionsLen_le cfg s a h)
    exact hgen es init (Nat.zero_le _)
  · intro s atm bars h
    unfold onResampledBars
    rw [if_pos h]

/-- C5 counterexample: four trigger evaluations with an unavailable ATM
strike invoke `enterPositions` four times, exceeding `maxEntries = 3`. -/
theorem c5_counterexample :
    defaultCfg.maxEntries < (run defaultCfg traceC).entryCalls ∧
      (run defaultCfg traceC).entryCalls = 4 := by
  decide

/-- Witness for C5 (amended) after three successful entries: the
positions count equals `maxEntries` and a further trigger evaluation is a
no-op. -/
theorem c5_amended_witness :
    positionsLen (run defaultCfg traceD) ≤ defaultCfg.maxEntries ∧
      onResampledBars defaultCfg (run defaultCfg traceD) (some 100) allBars =
        run defaultCfg traceD :=
  ⟨(c5_amended_theorem defaultCfg).1 traceD,
    (c5_amended_theorem defaultCfg).2 (run defaultCfg traceD) (some 100) allBars (by decide)⟩

/-- Witness for C10 at the concrete state `sC10` reached by one trigger
with an unavailable ATM strike. -/
theorem c10_witness :
    (enterPositions sC10 none allBars).2 = none ∧
      (onResampledBars defaultCfg sC10 none allBars).positionsNone = true ∧
      getStraddlePosition sC10 0 = Except.error () ∧
      (stepEnterOk sC10 0).2 = true ∧
      (stepExitOk sC10 0).2 = true ∧
      (step defaultCfg sC10 (Event.enterOk 0)).positionsNone = true := by
  obtain ⟨h1, h2, h3, h4, h5, h6⟩ :=
    c10_theorem defaultCfg sC10 0 allBars (Event.enterOk 0)
  exact ⟨h1, h2 (by decide), h3 (by decide), h4 (by decide), h5 (by decide) (by decide),
    h6 (by decide) trivial⟩


end StraddleStrategy
